import Mathlib

/-!
# A shallow embedding of the `gomem` allocator library

This file embeds the data structures and operations of the `gomem`
memory-allocator library (files `allocator.go`, `buddy.go`, the
`ScalableMemoryAllocator` file, `mem.go`) and proves properties about them.

Modelling conventions:

* Go `int` values (offsets, sizes, counters) become `Int`; the buddy
  allocator's `longests` array, whose entries are non-negative block counts,
  becomes a function `Nat → Nat`.
* Pointer identity of `Block` nodes is modelled by a unique `Nat` id carried
  in every tree node; the allocator state carries a counter `nextId` from
  which fresh ids are drawn.  The private free-list (`Allocator.pool`) of
  detached node objects is not modelled: a node taken from the pool is fully
  reinitialised (`getBlock` overwrites `Start`, `End` and clears the links),
  so reusing a pooled node is observationally identical to allocating a
  fresh one.
* The byte slabs themselves are not modelled; a Go slice returned by
  `Malloc` is modelled as `(owner, off, len)` where `owner` is the id of the
  backing region (`none` for a heap slice produced by the bypass path).
  Address-range lookup (`ptr - child.start ∈ [0, child.Size)`) is modelled
  by comparing the owner id with the region id: live Go heap objects occupy
  disjoint address ranges, so the address test succeeds exactly on the
  owning region.
* Go panics (such as indexing `&mem[0]` into an empty slice) are modelled by
  an `Option` result, `none` meaning the operation panics.
-/

namespace Gomem

/-- `MaxBlockSize = 1 << 22` from `mem.go`. -/
def MaxBlockSize : Int := 4194304

/-- `BuddySize = MaxBlockSize << 7` from `mem.go`, as a `Nat`. -/
def BuddySizeN : Nat := 4194304 * 128

/-- `MinPowerOf2 = 10` from `mem.go`. -/
def MinPowerOf2 : Nat := 10

/-!
## The free-region index (`allocator.go`)

A `Block` is an interval `[s, e)` of byte offsets.  The single-tree variant
keeps all free blocks in one binary tree that is a BST on `Start` and is
rotated towards a min-heap on the block size on insertion.  `nid` is the
node identity (standing for the Go pointer).
-/

/-- The tree of `Block` nodes (`Block.left`/`Block.right`); parent pointers
are implicit in the functional representation. -/
inductive Tree where
  | nil : Tree
  | node (l : Tree) (nid : Nat) (s e : Int) (r : Tree) : Tree
deriving DecidableEq, Repr

/-- Number of nodes of a tree. -/
def Tree.numNodes : Tree → Nat
  | .nil => 0
  | .node l _ _ _ r => l.numNodes + 1 + r.numNodes

/-- The multiset of `(nid, Start, End)` triples stored in a tree. -/
def Tree.nodesM : Tree → Multiset (Nat × Int × Int)
  | .nil => 0
  | .node l i s e r => l.nodesM + ((i, s, e) ::ₘ r.nodesM)

/-- The multiset of node ids stored in a tree. -/
def Tree.idsM (t : Tree) : Multiset Nat :=
  t.nodesM.map (·.1)

/-- `Block.find` from `allocator.go`: look for a block of size at least
`size`.  If the current block fits exactly it is returned at once;
otherwise the left subtree is searched first and the current block is used
as fallback; a block that is too small sends the search to the right
subtree only. -/
def Tree.find : Tree → Int → Option (Nat × Int × Int)
  | .nil, _ => none
  | .node l i s e r, size =>
    if e - s ≥ size then
      if e - s = size then some (i, s, e)
      else
        match l.find size with
        | some b => some b
        | none => some (i, s, e)
    else r.find size

/-- `Block.insert` from `allocator.go`: BST insertion on `Start`, followed
by one treap rotation when the inserted block is strictly smaller than the
current node and ended up as its direct child.  The `Bool` component records
whether the inserted node is the root of the returned subtree (the Go code
tests this with the pointer comparisons `block == b.left` /
`block == b.right`).  The Go code panics on an empty block
(`block.End == block.Start`); all blocks inserted by the public operations
verified below are non-empty, so the panic branch is not modelled. -/
def Tree.insertB : Tree → Nat → Int → Int → Tree × Bool
  | .nil, i, s, e => (.node .nil i s e .nil, true)
  | .node l bi bs be r, i, s, e =>
    if s < bs then
      match Tree.insertB l i s e with
      | (.node ll li ls le2 lr, true) =>
        if e - s < be - bs then
          (.node ll li ls le2 (.node lr bi bs be r), true)
        else
          (.node (.node ll li ls le2 lr) bi bs be r, false)
      | (l', _) => (.node l' bi bs be r, false)
    else
      match Tree.insertB r i s e with
      | (.node rl ri rs re2 rr, true) =>
        if e - s < be - bs then
          (.node (.node l bi bs be rl) ri rs re2 rr, true)
        else
          (.node l bi bs be (.node rl ri rs re2 rr), false)
      | (r', _) => (.node l bi bs be r', false)

/-- One step of `Allocator.deleteBlock` from `allocator.go`, expressed on
the subtree rooted at the node being deleted: rotate the node down
(`rotateRight` when its right child is nil or its left child is strictly
larger, `rotateLeft` otherwise) until it is a leaf, then drop it.  `fuel`
bounds the number of rotations; `numNodes` is always sufficient since each
rotation strictly shrinks the subtree that still contains the node. -/
def Tree.delRootAux : Nat → Tree → Tree
  | 0, t => t
  | _ + 1, .nil => .nil
  | _ + 1, .node .nil _ _ _ .nil => .nil
  | fuel + 1, .node (.node ll li ls le2 lr) i s e .nil =>
    .node ll li ls le2 (Tree.delRootAux fuel (.node lr i s e .nil))
  | fuel + 1, .node .nil i s e (.node rl ri rs re2 rr) =>
    .node (Tree.delRootAux fuel (.node .nil i s e rl)) ri rs re2 rr
  | fuel + 1, .node (.node ll li ls le2 lr) i s e (.node rl ri rs re2 rr) =>
    if le2 - ls > re2 - rs then
      .node ll li ls le2
        (Tree.delRootAux fuel (.node lr i s e (.node rl ri rs re2 rr)))
    else
      .node (Tree.delRootAux fuel (.node (.node ll li ls le2 lr) i s e rl))
        ri rs re2 rr

/-- Delete the root node of a subtree by rotating it down to a leaf. -/
def Tree.delRoot (t : Tree) : Tree :=
  Tree.delRootAux t.numNodes t

/-- `Allocator.deleteBlock` of the node with id `tid`.  The Go code holds a
pointer to the node; here the node is located by its unique id (ids in a
reachable tree are distinct), which identifies the same node. -/
def Tree.delById : Tree → Nat → Tree
  | .nil, _ => .nil
  | .node l i s e r, tid =>
    if i = tid then Tree.delRoot (.node l i s e r)
    else .node (l.delById tid) i s e (r.delById tid)

/-- `Allocator.findLeftAdjacent`: walk down looking for a block with
`End == offset`. -/
def Tree.findLeftAdj : Tree → Int → Option (Nat × Int × Int)
  | .nil, _ => none
  | .node l i s e r, offset =>
    if e = offset then some (i, s, e)
    else if e < offset then r.findLeftAdj offset
    else l.findLeftAdj offset

/-- `Allocator.findRightAdjacent`: walk down looking for a block with
`Start == offset`. -/
def Tree.findRightAdj : Tree → Int → Option (Nat × Int × Int)
  | .nil, _ => none
  | .node l i s e r, offset =>
    if s = offset then some (i, s, e)
    else if s > offset then l.findRightAdj offset
    else r.findRightAdj offset

/-- Sum of the block sizes of a tree (the quantity computed by
`Allocator.GetFreeSize` via `Walk`). -/
def Tree.freeSize : Tree → Int
  | .nil => 0
  | .node l _ s e r => l.freeSize + (e - s) + r.freeSize

/-- In-order list of `(Start, End)` pairs (the quantity produced by
`Allocator.GetBlocks` via `Walk`). -/
def Tree.blocksList : Tree → List (Int × Int)
  | .nil => []
  | .node l _ s e r => l.blocksList ++ (s, e) :: r.blocksList

/-- The span `End - Start` of the root block (used by
`ScalableMemoryAllocator.Free` through `child.allocator.sizeTree`); the Go
code dereferences the root pointer, so the `nil` case would panic there. -/
def Tree.rootSpan : Tree → Int
  | .nil => 0
  | .node _ _ s e _ => e - s

/-- The `Allocator` record from `allocator.go` (the node pool is not
modelled, see the header; `nextId` draws fresh node identities). -/
structure Allocator where
  sizeTree : Tree
  Size : Int
  nextId : Nat
deriving DecidableEq, Repr

/-- `NewAllocator` from `allocator.go`. -/
def NewAllocator (size : Int) : Allocator :=
  { sizeTree := .node .nil 0 0 size .nil, Size := size, nextId := 1 }

/-- `Allocator.Allocate`: find a block of size at least `size`, delete it,
return its whole extent when it fits exactly and otherwise shrink it to
`[Start+size, End)` and reinsert it.  Returns `-1` when `find` fails. -/
def Allocator.Allocate (a : Allocator) (size : Int) : Int × Allocator :=
  match a.sizeTree.find size with
  | none => (-1, a)
  | some (i, s, e) =>
    let t1 := a.sizeTree.delById i
    if e - s = size then
      (s, { a with sizeTree := t1 })
    else
      (s, { a with sizeTree := (t1.insertB i (s + size) e).1 })

/-- `Allocator.Free` from `allocator.go`: look up the two potential
neighbours and dispatch on the four adjacency cases.  When both neighbours
exist the right one is deleted first, then the left one, and the left node
is reinserted spanning both (the right node goes back to the pool); when
neither exists a fresh node is inserted. -/
def Allocator.Free (a : Allocator) (offset size : Int) : Allocator :=
  match a.sizeTree.findLeftAdj offset,
        a.sizeTree.findRightAdj (offset + size) with
  | some (li, ls, _), some (ri, _, re) =>
    let t1 := (a.sizeTree.delById ri).delById li
    { a with sizeTree := (t1.insertB li ls re).1 }
  | none, none =>
    { a with
      sizeTree := (a.sizeTree.insertB a.nextId offset (offset + size)).1,
      nextId := a.nextId + 1 }
  | some (li, ls, _), none =>
    let t1 := a.sizeTree.delById li
    { a with sizeTree := (t1.insertB li ls (offset + size)).1 }
  | none, some (ri, _, re) =>
    let t1 := a.sizeTree.delById ri
    { a with sizeTree := (t1.insertB ri offset re).1 }

/-- `Allocator.GetFreeSize`. -/
def Allocator.GetFreeSize (a : Allocator) : Int :=
  a.sizeTree.freeSize

/-- `Allocator.GetBlocks`, reduced to the `(Start, End)` data. -/
def Allocator.GetBlocks (a : Allocator) : List (Int × Int) :=
  a.sizeTree.blocksList

/-- `Allocator.Find`: the offset `find` would allocate at, without mutating
the index. -/
def Allocator.Find (a : Allocator) (size : Int) : Int :=
  match a.sizeTree.find size with
  | none => -1
  | some (_, s, _) => s

/-!
## Regions and the scalable allocator

`MemoryAllocator` wraps an `Allocator` index and an owned byte slab; the
slab's stable base address (`start`) is modelled by the unique `regionId`.
`GetMemoryAllocator` (default region factory, pooled) always hands back a
region whose index holds the single free block `[0, size)`; the per-size
object pools only avoid heap churn and are not observable, so the model
creates a fresh region.
-/

/-- The `MemoryAllocator` record (the byte slab and the `recycle` finaliser
are not modelled). -/
structure MemoryAllocator where
  allocator : Allocator
  Size : Int
  regionId : Nat
deriving DecidableEq, Repr

/-- `GetMemoryAllocator`/`createMemoryAllocator`: a ready region of `size`
bytes whose index holds the single free block `[0, size)`. -/
def mkRegion (rid : Nat) (size : Int) : MemoryAllocator :=
  { allocator := NewAllocator size, Size := size, regionId := rid }

/-- A Go byte slice returned by the allocator: the id of the backing region
(`none` for a bypass-path heap slice), the offset of its first byte inside
the region's slab, and its length. -/
structure Slice where
  owner : Option Nat
  off : Int
  len : Int
deriving DecidableEq, Repr

/-- `MemoryAllocator.Malloc`: delegate to `Allocator.Allocate` and carve
the subslice on success (`nil`, i.e. `none`, when the offset is `-1`). -/
def MemoryAllocator.Malloc (ma : MemoryAllocator) (size : Int) :
    Option Slice × MemoryAllocator :=
  match ma.allocator.Allocate size with
  | (offset, a') =>
    if offset = -1 then (none, { ma with allocator := a' })
    else (some ⟨some ma.regionId, offset, size⟩, { ma with allocator := a' })

/-- `MemoryAllocator.Find`: like `Malloc` but via the non-mutating
`Allocator.Find`. -/
def MemoryAllocator.Find (ma : MemoryAllocator) (size : Int) : Option Slice :=
  let offset := ma.allocator.Find size
  if offset = -1 then none else some ⟨some ma.regionId, offset, size⟩

/-- `MemoryAllocator.free`: bounds check, then `Allocator.Free`. -/
def MemoryAllocator.free (ma : MemoryAllocator) (start size : Int) :
    Bool × MemoryAllocator :=
  if start < 0 ∨ start + size > ma.Size then (false, ma)
  else (true, { ma with allocator := ma.allocator.Free start size })

/-- The `ScalableMemoryAllocator` record; `nextRegionId` models the
freshness of slab base addresses. -/
structure ScalableMemoryAllocator where
  children : List MemoryAllocator
  totalMalloc : Int
  totalFree : Int
  size : Int
  childSize : Int
  nextRegionId : Nat
deriving DecidableEq, Repr

/-- `NewScalableMemoryAllocator`. -/
def NewScalableMemoryAllocator (size : Int) : ScalableMemoryAllocator :=
  { children := [mkRegion 0 size], totalMalloc := 0, totalFree := 0,
    size := size, childSize := size, nextRegionId := 1 }

/-- The child-size growth loop shared by `Malloc` and `Borrow`:
`for childSize < MaxBlockSize { childSize <<= 1; if childSize >= size break }`.
The loop doubles `childSize` at least 1 per iteration while it is positive
and below `MaxBlockSize = 2^22`, so 64 iterations (the width of a Go `int`)
always suffice; the fuel only serves to make the definition structurally
recursive.  A non-positive `childSize` would make the Go loop diverge; that
state is unreachable (`childSize` starts at the constructor argument and
only doubles), and the model then returns the current value once the fuel
runs out. -/
def growAux : Nat → Int → Int → Int
  | 0, cs, _ => cs
  | fuel + 1, cs, size =>
    if cs < MaxBlockSize then
      let cs' := 2 * cs
      if cs' ≥ size then cs' else growAux fuel cs' size
    else cs

/-- The growth loop with its fuel. -/
def growChild (cs size : Int) : Int :=
  growAux 64 cs size

/-- The scan `for _, child = range sma.children { child.Malloc(size) }`:
returns the slice of the first region that satisfies the request together
with the updated region list. -/
def scanMalloc : List MemoryAllocator → Int → Option Slice × List MemoryAllocator
  | [], _ => (none, [])
  | c :: rest, size =>
    match c.Malloc size with
    | (some m, c') => (some m, c' :: rest)
    | (none, c') =>
      match scanMalloc rest size with
      | (m, rest') => (m, c' :: rest')

/-- `ScalableMemoryAllocator.Malloc`: bypass for `size > MaxBlockSize`
(fresh heap slice, no region, no counter update since the `defer` is not
yet registered), otherwise scan the regions and grow with a fresh region
when all fail; `totalMalloc` is increased by `size` on every non-bypass
path by the deferred `addMallocCount`. -/
def ScalableMemoryAllocator.Malloc (sma : ScalableMemoryAllocator)
    (size : Int) : Option Slice × ScalableMemoryAllocator :=
  if size > MaxBlockSize then (some ⟨none, 0, size⟩, sma)
  else
    match scanMalloc sma.children size with
    | (some m, cs') =>
      (some m, { sma with children := cs',
                          totalMalloc := sma.totalMalloc + size })
    | (none, cs') =>
      let ncs := growChild sma.childSize size
      let child := mkRegion sma.nextRegionId ncs
      match child.Malloc size with
      | (m, child') =>
        (m, { children := cs' ++ [child'],
              totalMalloc := sma.totalMalloc + size,
              totalFree := sma.totalFree,
              size := sma.size + ncs,
              childSize := ncs,
              nextRegionId := sma.nextRegionId + 1 })

/-- The scan `for _, child = range sma.children { child.Find(size) }`. -/
def scanFind : List MemoryAllocator → Int → Option Slice
  | [], _ => none
  | c :: rest, size =>
    match c.Find size with
    | some m => some m
    | none => scanFind rest size

/-- `ScalableMemoryAllocator.Borrow`: like `Malloc` but using the
non-mutating `Find`; returns `nil` (and skips the count, since the `defer`
is not registered) for `size > MaxBlockSize`; on the growth path the new
region is appended with its index untouched. -/
def ScalableMemoryAllocator.Borrow (sma : ScalableMemoryAllocator)
    (size : Int) : Option Slice × ScalableMemoryAllocator :=
  if size > MaxBlockSize then (none, sma)
  else
    match scanFind sma.children size with
    | some m => (some m, { sma with totalMalloc := sma.totalMalloc + size })
    | none =>
      let ncs := growChild sma.childSize size
      let child := mkRegion sma.nextRegionId ncs
      (child.Find size,
        { children := sma.children ++ [child],
          totalMalloc := sma.totalMalloc + size,
          totalFree := sma.totalFree,
          size := sma.size + ncs,
          childSize := ncs,
          nextRegionId := sma.nextRegionId + 1 })

/-- The loop of `ScalableMemoryAllocator.Free`: find the child whose
address range contains the slice (modelled by the owner id), free into it,
and reclaim the child when it is not the only one and its root block spans
the whole region.  Returns `none` when no child owns the slice, otherwise
the updated child list and the region size reclaimed (0 when none is). -/
def freeScan (totalLen : Nat) (mem : Slice) :
    List MemoryAllocator → Option (List MemoryAllocator × Int)
  | [] => none
  | c :: rest =>
    if (mem.owner = some c.regionId) ∧ mem.off ≥ 0 ∧ mem.off < c.Size then
      match c.free mem.off mem.len with
      | (true, c') =>
        if 1 < totalLen ∧ c'.allocator.sizeTree.rootSpan = c.Size then
          some (rest, c.Size)
        else some (c' :: rest, 0)
      | (false, _) =>
        match freeScan totalLen mem rest with
        | none => none
        | some (rest', d) => some (c :: rest', d)
    else
      match freeScan totalLen mem rest with
      | none => none
      | some (rest', d) => some (c :: rest', d)

/-- `ScalableMemoryAllocator.Free`.  The Go code computes
`ptr := &mem[0]` before anything else, which panics when `len(mem) == 0`;
the panic is modelled by returning `none`. -/
def ScalableMemoryAllocator.Free (sma : ScalableMemoryAllocator)
    (mem : Slice) : Option (Bool × ScalableMemoryAllocator) :=
  if mem.len = 0 then none
  else some
    (match freeScan sma.children.length mem sma.children with
     | none => (false, sma)
     | some (cs', reclaimed) =>
       (true, { sma with children := cs',
                         totalFree := sma.totalFree + mem.len,
                         size := sma.size - reclaimed }))

/-!
## The buddy allocator (`buddy.go`)

The pool is `BuddySize` bytes, managed in units of `2^MinPowerOf2` bytes,
so a buddy has `BuddySize >> MinPowerOf2` leaf units and a flat array
`longests` of length `BuddySize >> (MinPowerOf2-1) - 1` indexed by the
implicit complete binary tree (children of `i` at `2i+1`, `2i+2`).  The
array is modelled as a function `Nat → Nat`; the byte pool, its base
address and the mutex are not modelled (they do not affect `longests`).
-/

/-- Pointwise update of a modelled array. -/
def upd (f : Nat → Nat) (i v : Nat) : Nat → Nat :=
  fun j => if j = i then v else f j

/-- `isPowerOf2` from `buddy.go`: `size&(size-1) == 0` (true at 0 as in Go,
where `0 & -1 == 0`). -/
def isPowerOf2 (n : Nat) : Bool :=
  n &&& (n - 1) == 0

/-- `fixSize` from `buddy.go`: smear the leading bit right with shifts of
1, 2, 4, 8, 16 and add one, rounding to the next power of two (for values
below `2^32`). -/
def fixSize (n : Nat) : Nat :=
  let a := n ||| (n >>> 1)
  let b := a ||| (a >>> 2)
  let c := b ||| (b >>> 4)
  let d := c ||| (c >>> 8)
  let e := d ||| (d >>> 16)
  e + 1

/-- `leftChild`. -/
def leftChild (i : Nat) : Nat := 2 * i + 1

/-- `rightChild`. -/
def rightChild (i : Nat) : Nat := 2 * i + 2

/-- `parent` from `buddy.go`: `(index+1)/2 - 1`. -/
def parentIdx (i : Nat) : Nat := (i + 1) / 2 - 1

/-- The `Buddy` record (bytes, base address and mutex omitted). -/
structure Buddy where
  size : Nat
  longests : Nat → Nat

/-- The initialisation loop of `NewBuddy`:
`for nodeSize, i := 2*size, 0; i < len; i++ { if isPowerOf2(i+1) { nodeSize /= 2 }; longests[i] = nodeSize }`. -/
def buildL (L : Nat → Nat) (nodeSize i len : Nat) : Nat → Nat :=
  if _ : i < len then
    let ns := if isPowerOf2 (i + 1) then nodeSize / 2 else nodeSize
    buildL (upd L i ns) ns (i + 1) len
  else L
termination_by len - i

/-- `NewBuddy` (the Go array is zero-initialised before the loop). -/
def NewBuddy : Buddy :=
  let size := BuddySizeN >>> MinPowerOf2
  { size := size,
    longests :=
      buildL (fun _ => 0) (2 * size) 0 (BuddySizeN >>> (MinPowerOf2 - 1) - 1) }

/-- The descent loop of `Buddy.Alloc`:
`for nodeSize := b.size; nodeSize != size; nodeSize /= 2` choosing the left
child when `longests[left] >= size` and the right child otherwise.  When
`size` is not a power of two dividing `b.size` the Go loop never meets
`nodeSize == size` and diverges once `nodeSize` reaches 0; the model stops
there (the state is unreachable: the requested size is always rounded to a
power of two not exceeding `b.size`). -/
def allocDescend (L : Nat → Nat) (size : Nat) : Nat → Nat → Nat
  | nodeSize, index =>
    if nodeSize = size then index
    else if _ : nodeSize = 0 then index
    else
      allocDescend L size (nodeSize / 2)
        (if L (leftChild index) ≥ size then leftChild index
         else rightChild index)
  termination_by nodeSize => nodeSize
  decreasing_by omega

/-- The ancestor-update loop of `Buddy.Alloc`:
`for index != 0 { index = parent(index); longests[index] = max(left, right) }`. -/
def updAlloc (L : Nat → Nat) : Nat → (Nat → Nat)
  | index =>
    if _ : index = 0 then L
    else
      let p := parentIdx index
      updAlloc (upd L p (max (L (leftChild p)) (L (rightChild p)))) p
  termination_by index => index
  decreasing_by simp [parentIdx]; omega

/-- `Buddy.Alloc`.  Returns `none` for the two error results
(`InValidParameterErr` for `size <= 0`, `NotFoundErr` when the root cannot
serve the rounded size). -/
def Buddy.Alloc (b : Buddy) (size0 : Int) : Option Int × Buddy :=
  if size0 ≤ 0 then (none, b)
  else
    let sz0 := size0.toNat
    let size := if isPowerOf2 sz0 then sz0 else fixSize sz0
    if size > b.longests 0 then (none, b)
    else
      let index := allocDescend b.longests size b.size 0
      let L1 := upd b.longests index 0
      (some ((index + 1 : Int) * size - b.size),
       { b with longests := updAlloc L1 index })

/-- The node `Buddy.Alloc` marks as used (the descent result), recomputed
from the same state; used to express the pairing discipline. -/
def Buddy.allocIndex (b : Buddy) (size0 : Int) : Nat :=
  let sz0 := size0.toNat
  let size := if isPowerOf2 sz0 then sz0 else fixSize sz0
  allocDescend b.longests size b.size 0

/-- The upward search loop of `Buddy.Free`: starting from a leaf, climb
while `longests[index] != 0`, doubling `nodeSize`; `none` models the
`NotFoundErr` return when the root is reached while still non-zero. -/
def freeWalk (L : Nat → Nat) : Nat → Nat → Option (Nat × Nat)
  | index, nodeSize =>
    if L index = 0 then some (index, nodeSize)
    else if _ : index = 0 then none
    else freeWalk L (parentIdx index) (2 * nodeSize)
  termination_by index _ => index
  decreasing_by simp [parentIdx]; omega

/-- The merge loop of `Buddy.Free`: climb to the root, restoring a parent
to its full size when its children's sizes add up to it and to the max of
the children otherwise. -/
def mergeUp (L : Nat → Nat) : Nat → Nat → (Nat → Nat)
  | index, nodeSize =>
    if _ : index = 0 then L
    else
      let p := parentIdx index
      let ns := 2 * nodeSize
      let ls := L (leftChild p)
      let rs := L (rightChild p)
      mergeUp (upd L p (if ls + rs = ns then ns else max ls rs)) p ns
  termination_by index _ => index
  decreasing_by simp [parentIdx]; omega

/-- `Buddy.Free`.  `none` models the `InValidParameterErr` and
`NotFoundErr` returns. -/
def Buddy.Free (b : Buddy) (offset : Int) : Option Unit × Buddy :=
  if offset < 0 ∨ offset ≥ (b.size : Int) then (none, b)
  else
    match freeWalk b.longests (offset.toNat + b.size - 1) 1 with
    | none => (none, b)
    | some (index, nodeSize) =>
      (some (), { b with longests := mergeUp (upd b.longests index nodeSize) index nodeSize })

/-!
## Ghost state for the buddy pairing discipline

`Alloc` marks one tree node as used (`longests[index] = 0`) and `Free`
restores it; the array entries of all other nodes are determined by the
set of currently allocated nodes through the buddy recurrence.  The ghost
state is that set, as a `Finset` of node indices.
-/

/-- Number of leaf units of a fresh buddy: `BuddySize >> MinPowerOf2`. -/
def leafCount : Nat := BuddySizeN >>> MinPowerOf2

/-- Number of tree nodes of the `longests` array:
`BuddySize >> (MinPowerOf2-1) - 1`. -/
def treeLen : Nat := BuddySizeN >>> (MinPowerOf2 - 1) - 1

/-- Depth of node `i` in the implicit complete binary tree rooted at 0
(children of `i` at `2i+1` and `2i+2`). -/
def depth (i : Nat) : Nat := Nat.log 2 (i + 1)

/-- `j` lies in the subtree rooted at `i` (including `i` itself): some
chain of parent steps, i.e. halvings of the one-based index, leads from
`j` up to `i`. -/
def inSub (i j : Nat) : Prop := ∃ t, (j + 1) / 2 ^ t = i + 1

/-- The value the `longests` entry of a node of height `h` must hold,
determined by the set `A` of currently allocated nodes: an allocated node
holds 0, a free leaf 1, and an inner node the buddy recurrence of its
children (the full size `2^(h+1)` when the children add up to it, their
max otherwise). -/
def render (A : Finset Nat) : Nat → Nat → Nat
  | i, 0 => if i ∈ A then 0 else 1
  | i, h + 1 =>
    if i ∈ A then 0
    else if render A (leftChild i) h + render A (rightChild i) h = 2 ^ (h + 1)
      then 2 ^ (h + 1)
      else max (render A (leftChild i) h) (render A (rightChild i) h)

/-- Unit size of the block guarded by node `i`. -/
def nodeUnits (i : Nat) : Nat := leafCount >>> depth i

/-- The offset `Alloc` returns when it marks node `i`, and therefore the
argument a paired `Free` gets back for that block. -/
def nodeOffset (i : Nat) : Int := (i + 1 : Int) * nodeUnits i - leafCount

/-- The buddy invariant: the ghost set `A` of allocated nodes consists of
valid, pairwise incomparable nodes, and every valid `longests` entry is
the rendering of `A`. -/
structure BInv (b : Buddy) (A : Finset Nat) : Prop where
  hsize : b.size = leafCount
  hvalid : ∀ a ∈ A, depth a ≤ 19
  hanti : ∀ a ∈ A, ∀ j ∈ A, inSub a j → a = j
  hrender : ∀ i, depth i ≤ 19 → b.longests i = render A i (19 - depth i)

/-- Reachability for the buddy pairing discipline of the round-trip
property: every `Alloc` succeeds, and every `Free` hands back the offset
returned by exactly one outstanding allocation. -/
inductive BuddyReach : Buddy → Finset Nat → Prop where
  | init : BuddyReach NewBuddy ∅
  | alloc (b : Buddy) (A : Finset Nat) (n off : Int) (b' : Buddy) :
      BuddyReach b A → b.Alloc n = (some off, b') →
      BuddyReach b' (insert (b.allocIndex n) A)
  | free (b : Buddy) (A : Finset Nat) (a : Nat) (b' : Buddy) :
      BuddyReach b A → a ∈ A → b.Free (nodeOffset a) = (some (), b') →
      BuddyReach b' (A.erase a)

/-!
## Multiset view of the free-block tree

The treap rotations never change the collection of blocks stored in the
tree, so the bookkeeping facts (free-size accounting, id freshness) are
proved through the multiset of `(nid, Start, End)` triples.
-/

/-- Total size of a multiset of blocks. -/
def sizeSum (m : Multiset (Nat × Int × Int)) : Int :=
  (m.map fun x => x.2.2 - x.2.1).sum

/-!
## Allocator-level bookkeeping

`AllocWF` is the id-freshness invariant: all node ids are distinct and
below `nextId`.  `BlocksIn` bounds every stored block inside `[0, size)`
with positive extent.
-/

/-- Well-formedness of the node identities of an allocator. -/
def AllocWF (a : Allocator) : Prop :=
  a.sizeTree.idsM.Nodup ∧ ∀ i ∈ a.sizeTree.idsM, i < a.nextId

/-- Every stored block lies inside `[0, size)` and is non-empty. -/
def BlocksIn (t : Tree) (size : Int) : Prop :=
  ∀ p ∈ t.nodesM, 0 ≤ p.2.1 ∧ p.2.1 < p.2.2 ∧ p.2.2 ≤ size

/-!
## Example states

`exAlloc` is the allocator reached by
`NewAllocator(200); Allocate(200); Free(100, 20); Free(0, 99)`: its free
blocks are `[0,99)` (size 99) and `[100,120)` (size 20), with the
size-99 block sitting in the left subtree of the size-20 root.
`s2Alloc` is the state of scenario S2 of the specification, and
`s3Scal` the scalable allocator of scenario S3.
-/

def exAlloc : Allocator :=
  (((NewAllocator 200).Allocate 200).2.Free 100 20).Free 0 99

def s2Alloc : Allocator :=
  ((((NewAllocator 100).Allocate 100).2.Free 10 20).Free 40 20).Free 80 20

def s3Scal : ScalableMemoryAllocator :=
  ((((NewScalableMemoryAllocator 1024).Malloc 1024).2.Malloc
    1024).2.Malloc 3000).2

/-- The allocator of scenario S1 after both frees:
`NewAllocator(1000); Allocate(100); Allocate(200); Free(0,299); Free(299,1)`. -/
def s1Alloc : Allocator :=
  ((((NewAllocator 1000).Allocate 100).2.Allocate 200).2.Free 0 299).Free 299 1

/-!
## Ghost semantics of the scalable allocator

A reachable scalable-allocator state is one produced from
`NewScalableMemoryAllocator(size)` (with a positive size) by a sequence of
`Malloc` calls with `1 ≤ n ≤ MaxBlockSize` and `Free` calls whose argument
is a slice previously returned by `Malloc` and not freed since.  The list
`live` is the ghost record of outstanding slices.
-/

/-- Total length of the live slices owned by region `rid`. -/
def liveLen (live : List Slice) (rid : Nat) : Int :=
  ((live.filter fun m => m.owner = some rid).map fun m => m.len).sum

/-- Sum of the region sizes of a scalable allocator. -/
def sumSizes (sma : ScalableMemoryAllocator) : Int :=
  (sma.children.map fun c => c.Size).sum

/-- Sum of the free sizes of the regions of a scalable allocator. -/
def sumFree (sma : ScalableMemoryAllocator) : Int :=
  (sma.children.map fun c => c.allocator.GetFreeSize).sum

/-- Reachability of a scalable-allocator state together with its ghost
list of outstanding (`malloc`ed, not yet freed) slices. -/
inductive SReach : ScalableMemoryAllocator → List Slice → Prop where
  | init (size : Int) (h : 1 ≤ size) :
      SReach (NewScalableMemoryAllocator size) []
  | malloc (sma : ScalableMemoryAllocator) (live : List Slice) (n : Int)
      (m : Slice) (sma' : ScalableMemoryAllocator) :
      SReach sma live → 1 ≤ n → n ≤ MaxBlockSize →
      sma.Malloc n = (some m, sma') → SReach sma' (m :: live)
  | free (sma : ScalableMemoryAllocator) (live : List Slice) (m : Slice)
      (b : Bool) (sma' : ScalableMemoryAllocator) :
      SReach sma live → m ∈ live →
      sma.Free m = some (b, sma') → SReach sma' (live.erase m)

/-- The state invariant of reachable scalable allocators: fresh and
distinct region ids, well-formed per-region indices, the per-region free
ledger, validity of the outstanding slices, a positive `childSize`, and
the conservation equation itself. -/
structure SInv (sma : ScalableMemoryAllocator) (live : List Slice) : Prop where
  idsNodup : (sma.children.map fun c => c.regionId).Nodup
  idsLt : ∀ c ∈ sma.children, c.regionId < sma.nextRegionId
  treeWF : ∀ c ∈ sma.children, AllocWF c.allocator
  blocksOk : ∀ c ∈ sma.children, BlocksIn c.allocator.sizeTree c.Size ∧
    c.allocator.Size = c.Size
  ledger : ∀ c ∈ sma.children,
    c.allocator.GetFreeSize + liveLen live c.regionId = c.Size
  liveOk : ∀ m ∈ live, ∃ c ∈ sma.children, m.owner = some c.regionId ∧
    0 ≤ m.off ∧ 1 ≤ m.len ∧ m.off + m.len ≤ c.Size
  childPos : 1 ≤ sma.childSize
  consEq : sma.totalMalloc - sma.totalFree = sumSizes sma - sumFree sma

theorem sizeSum_add (m₁ m₂ : Multiset (Nat × Int × Int)) :
    sizeSum (m₁ + m₂) = sizeSum m₁ + sizeSum m₂ := by
  simp [sizeSum]

theorem sizeSum_cons (p : Nat × Int × Int) (m : Multiset (Nat × Int × Int)) :
    sizeSum (p ::ₘ m) = (p.2.2 - p.2.1) + sizeSum m := by
  simp [sizeSum]

theorem Tree.freeSize_eq_sizeSum (t : Tree) : t.freeSize = sizeSum t.nodesM := by
  induction t with
  | nil => simp [Tree.freeSize, Tree.nodesM, sizeSum]
  | node l i s e r ihl ihr =>
    simp [Tree.freeSize, Tree.nodesM, sizeSum_add, sizeSum_cons, ihl, ihr]
    ring

theorem Tree.idsM_nil : Tree.nil.idsM = 0 := rfl

theorem Tree.idsM_node (l : Tree) (i : Nat) (s e : Int) (r : Tree) :
    (Tree.node l i s e r).idsM = l.idsM + (i ::ₘ r.idsM) := by
  simp [Tree.idsM, Tree.nodesM]

theorem Tree.mem_idsM_of_mem_nodesM {t : Tree} {p : Nat × Int × Int}
    (h : p ∈ t.nodesM) : p.1 ∈ t.idsM := by
  exact Multiset.mem_map_of_mem _ h

theorem Tree.insertB_nodesM (t : Tree) (i : Nat) (s e : Int) :
    ((t.insertB i s e).1).nodesM = (i, s, e) ::ₘ t.nodesM := by
  induction t with
  | nil => simp [Tree.insertB, Tree.nodesM]
  | node l bi bs be r ihl ihr =>
    by_cases hlt : s < bs
    · rcases hp : Tree.insertB l i s e with ⟨l', flag⟩
      have ihl' : l'.nodesM = (i, s, e) ::ₘ l.nodesM := by
        rw [← ihl, hp]
      cases l' with
      | nil =>
        exfalso
        have := congrArg Multiset.card ihl'
        simp [Tree.nodesM] at this
      | node ll li ls le2 lr =>
        cases flag with
        | false =>
          simp only [Tree.insertB, if_pos hlt, hp]
          simp only [Tree.nodesM] at ihl' ⊢
          rw [ihl']
          simp only [← Multiset.singleton_add]
          abel
        | true =>
          simp only [Tree.insertB, if_pos hlt, hp]
          by_cases hsz : e - s < be - bs
          · simp only [if_pos hsz]
            simp only [Tree.nodesM] at ihl' ⊢
            rw [← Multiset.singleton_add, ← Multiset.singleton_add] at ihl' ⊢
            rw [← Multiset.singleton_add]
            have : ll.nodesM + ({(li, ls, le2)} + (lr.nodesM +
                ({(bi, bs, be)} + r.nodesM))) =
                (ll.nodesM + ({(li, ls, le2)} + lr.nodesM)) +
                ({(bi, bs, be)} + r.nodesM) := by abel
            rw [this, ihl']
            try simp only [← Multiset.singleton_add]
            abel
          · simp only [if_neg hsz]
            simp only [Tree.nodesM] at ihl' ⊢
            rw [ihl']
            try simp only [← Multiset.singleton_add]
            abel
    · rcases hp : Tree.insertB r i s e with ⟨r', flag⟩
      have ihr' : r'.nodesM = (i, s, e) ::ₘ r.nodesM := by
        rw [← ihr, hp]
      cases r' with
      | nil =>
        exfalso
        have := congrArg Multiset.card ihr'
        simp [Tree.nodesM] at this
      | node rl ri rs re2 rr =>
        cases flag with
        | false =>
          simp only [Tree.insertB, if_neg hlt, hp]
          simp only [Tree.nodesM] at ihr' ⊢
          rw [ihr']
          simp only [← Multiset.singleton_add]
          abel
        | true =>
          simp only [Tree.insertB, if_neg hlt, hp]
          by_cases hsz : e - s < be - bs
          · simp only [if_pos hsz]
            simp only [Tree.nodesM] at ihr' ⊢
            rw [← Multiset.singleton_add, ← Multiset.singleton_add] at ihr' ⊢
            rw [← Multiset.singleton_add]
            have : l.nodesM + ({(bi, bs, be)} + rl.nodesM) +
                ({(ri, rs, re2)} + rr.nodesM) =
                l.nodesM + ({(bi, bs, be)} +
                  (rl.nodesM + ({(ri, rs, re2)} + rr.nodesM))) := by abel
            rw [this, ihr']
            try simp only [← Multiset.singleton_add]
            abel
          · simp only [if_neg hsz]
            simp only [Tree.nodesM] at ihr' ⊢
            rw [ihr']
            try simp only [← Multiset.singleton_add]
            abel

theorem Tree.delRootAux_nodesM :
    ∀ (fuel : Nat) (l : Tree) (i : Nat) (s e : Int) (r : Tree),
      (Tree.node l i s e r).numNodes ≤ fuel →
      (Tree.delRootAux fuel (Tree.node l i s e r)).nodesM =
        l.nodesM + r.nodesM := by
  intro fuel
  induction fuel with
  | zero =>
    intro l i s e r h
    simp [Tree.numNodes] at h
  | succ fuel ih =>
    intro l i s e r h
    cases l with
    | nil =>
      cases r with
      | nil => simp [Tree.delRootAux, Tree.nodesM]
      | node rl ri rs re2 rr =>
        have hn : (Tree.node Tree.nil i s e rl).numNodes ≤ fuel := by
          simp [Tree.numNodes] at h ⊢
          omega
        simp only [Tree.delRootAux, Tree.nodesM]
        rw [ih _ _ _ _ _ hn]
        simp only [Tree.nodesM, ← Multiset.singleton_add]
        abel
    | node ll li ls le2 lr =>
      cases r with
      | nil =>
        have hn : (Tree.node lr i s e Tree.nil).numNodes ≤ fuel := by
          simp [Tree.numNodes] at h ⊢
          omega
        simp only [Tree.delRootAux, Tree.nodesM]
        rw [ih _ _ _ _ _ hn]
        simp only [Tree.nodesM, ← Multiset.singleton_add]
        abel
      | node rl ri rs re2 rr =>
        by_cases hc : le2 - ls > re2 - rs
        · have hn : (Tree.node lr i s e (Tree.node rl ri rs re2 rr)).numNodes
              ≤ fuel := by
            simp [Tree.numNodes] at h ⊢
            omega
          simp only [Tree.delRootAux, if_pos hc, Tree.nodesM]
          rw [ih _ _ _ _ _ hn]
          simp only [Tree.nodesM, ← Multiset.singleton_add]
          abel
        · have hn : (Tree.node (Tree.node ll li ls le2 lr) i s e rl).numNodes
              ≤ fuel := by
            simp [Tree.numNodes] at h ⊢
            omega
          simp only [Tree.delRootAux, if_neg hc, Tree.nodesM]
          rw [ih _ _ _ _ _ hn]
          simp only [Tree.nodesM, ← Multiset.singleton_add]
          abel

theorem Tree.delRoot_nodesM (l : Tree) (i : Nat) (s e : Int) (r : Tree) :
    (Tree.delRoot (Tree.node l i s e r)).nodesM = l.nodesM + r.nodesM :=
  Tree.delRootAux_nodesM _ l i s e r le_rfl

theorem Tree.delById_of_not_mem {t : Tree} {tid : Nat}
    (h : tid ∉ t.idsM) : t.delById tid = t := by
  induction t with
  | nil => rfl
  | node l i s e r ihl ihr =>
    rw [Tree.idsM_node] at h
    simp only [Multiset.mem_add, Multiset.mem_cons] at h
    push_neg at h
    rw [Tree.delById, if_neg (fun hh => h.2.1 hh.symm),
      ihl h.1, ihr h.2.2]

theorem Tree.delById_nodesM {t : Tree} {tid : Nat} {s e : Int}
    (hn : t.idsM.Nodup) (hm : (tid, s, e) ∈ t.nodesM) :
    (tid, s, e) ::ₘ (t.delById tid).nodesM = t.nodesM := by
  induction t with
  | nil => simp [Tree.nodesM] at hm
  | node l i s2 e2 r ihl ihr =>
    rw [Tree.idsM_node] at hn
    rw [Tree.nodesM] at hm
    rcases Multiset.nodup_add.1 hn with ⟨hnl, hncr, hdisj⟩
    rcases Multiset.nodup_cons.1 hncr with ⟨hir, hnr⟩
    by_cases hroot : i = tid
    · subst hroot
      rcases Multiset.mem_add.1 hm with hm | hm
      · exact absurd (Multiset.disjoint_left.1 hdisj
          (Tree.mem_idsM_of_mem_nodesM hm)) (by simp)
      · rcases Multiset.mem_cons.1 hm with hm | hm
        · rw [Tree.delById, if_pos rfl, Tree.delRoot_nodesM]
          have hs : s = s2 ∧ e = e2 := by
            simp [Prod.ext_iff] at hm
            exact ⟨hm.1, hm.2⟩
          rw [hs.1, hs.2]
          simp only [Tree.nodesM, ← Multiset.singleton_add]
          abel
        · exact absurd (Tree.mem_idsM_of_mem_nodesM hm) hir
    · rw [Tree.delById, if_neg hroot]
      rcases Multiset.mem_add.1 hm with hm | hm
      · have htid_r : tid ∉ r.idsM := by
          intro hc
          exact Multiset.disjoint_left.1 hdisj
            (Tree.mem_idsM_of_mem_nodesM hm) (Multiset.mem_cons_of_mem hc)
        simp only [Tree.nodesM]
        rw [Tree.delById_of_not_mem htid_r, ← ihl hnl hm]
        simp only [← Multiset.singleton_add]
        abel
      · rcases Multiset.mem_cons.1 hm with hm | hm
        · exact absurd (congrArg Prod.fst hm).symm hroot
        · have htid_l : tid ∉ l.idsM := by
            intro hc
            exact Multiset.disjoint_left.1 hdisj hc
              (Multiset.mem_cons_of_mem (Tree.mem_idsM_of_mem_nodesM hm))
          simp only [Tree.nodesM]
          rw [Tree.delById_of_not_mem htid_l, ← ihr hnr hm]
          simp only [← Multiset.singleton_add]
          abel

theorem Tree.find_spec {t : Tree} {n : Int} {i : Nat} {s e : Int}
    (h : t.find n = some (i, s, e)) :
    (i, s, e) ∈ t.nodesM ∧ n ≤ e - s := by
  induction t with
  | nil => simp [Tree.find] at h
  | node l bi bs be r ihl ihr =>
    rw [Tree.find] at h
    by_cases hfit : be - bs ≥ n
    · rw [if_pos hfit] at h
      by_cases hex : be - bs = n
      · rw [if_pos hex] at h
        obtain ⟨rfl, rfl, rfl⟩ : bi = i ∧ bs = s ∧ be = e := by simpa using h
        refine ⟨?_, by omega⟩
        simp [Tree.nodesM]
      · rw [if_neg hex] at h
        cases hl : l.find n with
        | some b =>
          rw [hl] at h
          obtain rfl : b = (i, s, e) := Option.some.inj h
          rcases ihl hl with ⟨hm, hsz⟩
          exact ⟨by simp [Tree.nodesM]; tauto, hsz⟩
        | none =>
          rw [hl] at h
          obtain ⟨rfl, rfl, rfl⟩ : bi = i ∧ bs = s ∧ be = e := by simpa using h
          refine ⟨?_, by omega⟩
          simp [Tree.nodesM]
    · rw [if_neg hfit] at h
      rcases ihr h with ⟨hm, hsz⟩
      exact ⟨by simp [Tree.nodesM]; tauto, hsz⟩

theorem Tree.find_none_of_all_small {t : Tree} {n : Int}
    (h : ∀ p ∈ t.nodesM, p.2.2 - p.2.1 < n) : t.find n = none := by
  induction t with
  | nil => rfl
  | node l bi bs be r ihl ihr =>
    have hroot : be - bs < n := by
      have := h (bi, bs, be) (by simp [Tree.nodesM])
      simpa using this
    rw [Tree.find, if_neg (by omega)]
    exact ihr fun p hp => h p (by simp [Tree.nodesM]; tauto)

theorem Tree.findLeftAdj_spec {t : Tree} {off : Int} {i : Nat} {s e : Int}
    (h : t.findLeftAdj off = some (i, s, e)) :
    (i, s, e) ∈ t.nodesM ∧ e = off := by
  induction t with
  | nil => simp [Tree.findLeftAdj] at h
  | node l bi bs be r ihl ihr =>
    rw [Tree.findLeftAdj] at h
    by_cases h1 : be = off
    · rw [if_pos h1] at h
      obtain ⟨rfl, rfl, rfl⟩ : bi = i ∧ bs = s ∧ be = e := by simpa using h
      exact ⟨by simp [Tree.nodesM], h1⟩
    · rw [if_neg h1] at h
      by_cases h2 : be < off
      · rw [if_pos h2] at h
        rcases ihr h with ⟨hm, he⟩
        exact ⟨by simp [Tree.nodesM]; tauto, he⟩
      · rw [if_neg h2] at h
        rcases ihl h with ⟨hm, he⟩
        exact ⟨by simp [Tree.nodesM]; tauto, he⟩

theorem Tree.findRightAdj_spec {t : Tree} {off : Int} {i : Nat} {s e : Int}
    (h : t.findRightAdj off = some (i, s, e)) :
    (i, s, e) ∈ t.nodesM ∧ s = off := by
  induction t with
  | nil => simp [Tree.findRightAdj] at h
  | node l bi bs be r ihl ihr =>
    rw [Tree.findRightAdj] at h
    by_cases h1 : bs = off
    · rw [if_pos h1] at h
      obtain ⟨rfl, rfl, rfl⟩ : bi = i ∧ bs = s ∧ be = e := by simpa using h
      exact ⟨by simp [Tree.nodesM], h1⟩
    · rw [if_neg h1] at h
      by_cases h2 : bs > off
      · rw [if_pos h2] at h
        rcases ihl h with ⟨hm, he⟩
        exact ⟨by simp [Tree.nodesM]; tauto, he⟩
      · rw [if_neg h2] at h
        rcases ihr h with ⟨hm, he⟩
        exact ⟨by simp [Tree.nodesM]; tauto, he⟩

theorem Tree.insertB_idsM (t : Tree) (i : Nat) (s e : Int) :
    ((t.insertB i s e).1).idsM = i ::ₘ t.idsM := by
  simp [Tree.idsM, Tree.insertB_nodesM]

theorem Tree.delById_idsM {t : Tree} {tid : Nat} {s e : Int}
    (hn : t.idsM.Nodup) (hm : (tid, s, e) ∈ t.nodesM) :
    tid ::ₘ (t.delById tid).idsM = t.idsM := by
  have := congrArg (Multiset.map (·.1)) (Tree.delById_nodesM hn hm)
  simpa [Tree.idsM] using this

theorem Tree.delById_freeSize {t : Tree} {tid : Nat} {s e : Int}
    (hn : t.idsM.Nodup) (hm : (tid, s, e) ∈ t.nodesM) :
    (t.delById tid).freeSize = t.freeSize - (e - s) := by
  have h := congrArg sizeSum (Tree.delById_nodesM hn hm)
  rw [sizeSum_cons] at h
  dsimp only at h
  rw [Tree.freeSize_eq_sizeSum, Tree.freeSize_eq_sizeSum]
  omega

theorem Tree.delById_nodup {t : Tree} {tid : Nat} {s e : Int}
    (hn : t.idsM.Nodup) (hm : (tid, s, e) ∈ t.nodesM) :
    (t.delById tid).idsM.Nodup ∧ tid ∉ (t.delById tid).idsM := by
  have h := Tree.delById_idsM hn hm
  rw [← h] at hn
  exact ⟨(Multiset.nodup_cons.1 hn).2, (Multiset.nodup_cons.1 hn).1⟩

theorem Tree.delById_mem_of_mem {t : Tree} {tid : Nat} {s e : Int} {p : Nat × Int × Int}
    (hn : t.idsM.Nodup) (hm : (tid, s, e) ∈ t.nodesM)
    (hp : p ∈ (t.delById tid).nodesM) : p ∈ t.nodesM := by
  rw [← Tree.delById_nodesM hn hm]
  exact Multiset.mem_cons_of_mem hp

theorem Allocator.Allocate_none (a : Allocator) (n : Int)
    (hf : a.sizeTree.find n = none) :
    (a.Allocate n).1 = -1 ∧ (a.Allocate n).2 = a := by
  simp [Allocator.Allocate, hf]

theorem Allocator.Allocate_spec (a : Allocator) (n : Int) {i : Nat} {s e : Int}
    (hw : AllocWF a) (hb : BlocksIn a.sizeTree a.Size) (hn : 0 < n)
    (hf : a.sizeTree.find n = some (i, s, e)) :
    (a.Allocate n).1 = s ∧
    (a.Allocate n).2.Size = a.Size ∧
    (a.Allocate n).2.nextId = a.nextId ∧
    AllocWF (a.Allocate n).2 ∧
    BlocksIn (a.Allocate n).2.sizeTree a.Size ∧
    (a.Allocate n).2.GetFreeSize = a.GetFreeSize - n ∧
    0 ≤ s ∧ s + n ≤ a.Size := by
  obtain ⟨hmem, hsz⟩ := Tree.find_spec hf
  obtain ⟨hs0, hse, heS⟩ := hb (i, s, e) hmem
  dsimp only at hs0 hse heS
  have hbnd : 0 ≤ s ∧ s + n ≤ a.Size := ⟨hs0, by omega⟩
  have hdel := Tree.delById_nodesM hw.1 hmem
  have hdelfs := Tree.delById_freeSize hw.1 hmem
  have hdelids := Tree.delById_idsM hw.1 hmem
  have hdelnd := Tree.delById_nodup hw.1 hmem
  by_cases hex : e - s = n
  · simp only [Allocator.Allocate, hf, if_pos hex]
    refine ⟨by trivial, by trivial, by trivial, ⟨hdelnd.1, ?_⟩, ?_, ?_, hbnd⟩
    · intro j hj
      exact hw.2 j (by rw [← hdelids]; exact Multiset.mem_cons_of_mem hj)
    · intro p hp
      exact hb p (Tree.delById_mem_of_mem hw.1 hmem hp)
    · simp only [Allocator.GetFreeSize, hdelfs]
      omega
  · simp only [Allocator.Allocate, hf, if_neg hex]
    refine ⟨by trivial, by trivial, by trivial, ⟨?_, ?_⟩, ?_, ?_, hbnd⟩
    · rw [Tree.insertB_idsM, Multiset.nodup_cons]
      exact ⟨hdelnd.2, hdelnd.1⟩
    · intro j hj
      rw [Tree.insertB_idsM, Multiset.mem_cons] at hj
      rcases hj with rfl | hj
      · exact hw.2 j (Tree.mem_idsM_of_mem_nodesM hmem)
      · exact hw.2 j (by rw [← hdelids]; exact Multiset.mem_cons_of_mem hj)
    · intro p hp
      rw [Tree.insertB_nodesM, Multiset.mem_cons] at hp
      rcases hp with rfl | hp
      · try dsimp only
        exact ⟨by omega, by omega, by omega⟩
      · exact hb p (Tree.delById_mem_of_mem hw.1 hmem hp)
    · simp only [Allocator.GetFreeSize, Tree.freeSize_eq_sizeSum,
        Tree.insertB_nodesM, sizeSum_cons]
      rw [← Tree.freeSize_eq_sizeSum, hdelfs]
      try dsimp only
      rw [← Tree.freeSize_eq_sizeSum]
      omega

theorem Allocator.Allocate_ne_neg_one (a : Allocator) (n : Int) {i : Nat}
    {s e : Int} {sz : Int} (hb : BlocksIn a.sizeTree sz)
    (hf : a.sizeTree.find n = some (i, s, e)) :
    (a.Allocate n).1 ≠ -1 := by
  have hs0 := (hb (i, s, e) (Tree.find_spec hf).1).1
  dsimp only at hs0
  simp only [Allocator.Allocate, hf]
  by_cases hex : e - s = n
  · simp only [if_pos hex]
    omega
  · simp only [if_neg hex]
    omega

theorem Allocator.Free_spec (a : Allocator) (off n : Int)
    (hw : AllocWF a) (hb : BlocksIn a.sizeTree a.Size)
    (hn : 0 < n) (h0 : 0 ≤ off) (h1 : off + n ≤ a.Size) :
    (a.Free off n).Size = a.Size ∧
    AllocWF (a.Free off n) ∧
    BlocksIn (a.Free off n).sizeTree a.Size ∧
    (a.Free off n).GetFreeSize = a.GetFreeSize + n ∧
    a.nextId ≤ (a.Free off n).nextId := by
  cases hL : a.sizeTree.findLeftAdj off with
  | some pL =>
    obtain ⟨li, ls, le⟩ := pL
    obtain ⟨hmemL, hle⟩ := Tree.findLeftAdj_spec hL
    subst hle
    obtain ⟨hls0, hlslt, hleS⟩ := hb _ hmemL
    dsimp only at hls0 hlslt hleS
    cases hR : a.sizeTree.findRightAdj (le + n) with
    | some pR =>
      obtain ⟨ri, rs, re⟩ := pR
      obtain ⟨hmemR, hrs⟩ := Tree.findRightAdj_spec hR
      subst hrs
      obtain ⟨hrs0, hrslt, hreS⟩ := hb _ hmemR
      dsimp only at hrs0 hrslt hreS
      -- delete the right neighbour first, as the source does
      have hdelR := Tree.delById_nodesM hw.1 hmemR
      have hdelRids := Tree.delById_idsM hw.1 hmemR
      have hdelRnd := Tree.delById_nodup hw.1 hmemR
      have hmemL1 : (li, ls, le) ∈ (a.sizeTree.delById ri).nodesM := by
        have hx := hmemL
        rw [← hdelR, Multiset.mem_cons] at hx
        rcases hx with heq | hin
        · exfalso
          have : ls = le + n := by
            have := congrArg (fun p => p.2.1) heq
            simpa using this
          omega
        · exact hin
      have hdelL := Tree.delById_nodesM hdelRnd.1 hmemL1
      have hdelLids := Tree.delById_idsM hdelRnd.1 hmemL1
      have hdelLnd := Tree.delById_nodup hdelRnd.1 hmemL1
      simp only [Allocator.Free, hL, hR]
      refine ⟨by trivial, ⟨?_, ?_⟩, ?_, ?_, by trivial⟩
      · rw [Tree.insertB_idsM, hdelLids]
        exact hdelRnd.1
      · intro j hj
        rw [Tree.insertB_idsM, hdelLids] at hj
        exact hw.2 j (by rw [← hdelRids]; exact Multiset.mem_cons_of_mem hj)
      · intro p hp
        rw [Tree.insertB_nodesM, Multiset.mem_cons] at hp
        rcases hp with rfl | hp
        · try dsimp only
          exact ⟨by omega, by omega, by omega⟩
        · have hp1 : p ∈ (a.sizeTree.delById ri).nodesM := by
            rw [← hdelL]
            exact Multiset.mem_cons_of_mem hp
          exact hb p (by rw [← hdelR]; exact Multiset.mem_cons_of_mem hp1)
      · simp only [Allocator.GetFreeSize, Tree.freeSize_eq_sizeSum,
          Tree.insertB_nodesM, sizeSum_cons]
        have e1 := congrArg sizeSum hdelL
        have e2 := congrArg sizeSum hdelR
        rw [sizeSum_cons] at e1 e2
        dsimp only at e1 e2 ⊢
        omega
    | none =>
      have hdelL := Tree.delById_nodesM hw.1 hmemL
      have hdelLids := Tree.delById_idsM hw.1 hmemL
      have hdelLnd := Tree.delById_nodup hw.1 hmemL
      simp only [Allocator.Free, hL, hR]
      refine ⟨by trivial, ⟨?_, ?_⟩, ?_, ?_, by trivial⟩
      · rw [Tree.insertB_idsM, hdelLids]
        exact hw.1
      · intro j hj
        rw [Tree.insertB_idsM, hdelLids] at hj
        exact hw.2 j hj
      · intro p hp
        rw [Tree.insertB_nodesM, Multiset.mem_cons] at hp
        rcases hp with rfl | hp
        · try dsimp only
          exact ⟨by omega, by omega, by omega⟩
        · exact hb p (by rw [← hdelL]; exact Multiset.mem_cons_of_mem hp)
      · simp only [Allocator.GetFreeSize, Tree.freeSize_eq_sizeSum,
          Tree.insertB_nodesM, sizeSum_cons]
        have e1 := congrArg sizeSum hdelL
        rw [sizeSum_cons] at e1
        dsimp only at e1 ⊢
        omega
  | none =>
    cases hR : a.sizeTree.findRightAdj (off + n) with
    | some pR =>
      obtain ⟨ri, rs, re⟩ := pR
      obtain ⟨hmemR, hrs⟩ := Tree.findRightAdj_spec hR
      subst hrs
      obtain ⟨hrs0, hrslt, hreS⟩ := hb _ hmemR
      dsimp only at hrs0 hrslt hreS
      have hdelR := Tree.delById_nodesM hw.1 hmemR
      have hdelRids := Tree.delById_idsM hw.1 hmemR
      have hdelRnd := Tree.delById_nodup hw.1 hmemR
      simp only [Allocator.Free, hL, hR]
      refine ⟨by trivial, ⟨?_, ?_⟩, ?_, ?_, by trivial⟩
      · rw [Tree.insertB_idsM, hdelRids]
        exact hw.1
      · intro j hj
        rw [Tree.insertB_idsM, hdelRids] at hj
        exact hw.2 j hj
      · intro p hp
        rw [Tree.insertB_nodesM, Multiset.mem_cons] at hp
        rcases hp with rfl | hp
        · try dsimp only
          exact ⟨by omega, by omega, by omega⟩
        · exact hb p (by rw [← hdelR]; exact Multiset.mem_cons_of_mem hp)
      · simp only [Allocator.GetFreeSize, Tree.freeSize_eq_sizeSum,
          Tree.insertB_nodesM, sizeSum_cons]
        have e1 := congrArg sizeSum hdelR
        rw [sizeSum_cons] at e1
        dsimp only at e1 ⊢
        omega
    | none =>
      simp only [Allocator.Free, hL, hR]
      refine ⟨by trivial, ⟨?_, ?_⟩, ?_, ?_,
by first | trivial | omega⟩
      · rw [Tree.insertB_idsM, Multiset.nodup_cons]
        constructor
        · intro hc
          exact absurd (hw.2 _ hc) (by omega)
        · exact hw.1
      · intro j hj
        rw [Tree.insertB_idsM, Multiset.mem_cons] at hj
        try dsimp only
        rcases hj with rfl | hj
        · omega
        · have := hw.2 j hj
          omega
      · intro p hp
        rw [Tree.insertB_nodesM, Multiset.mem_cons] at hp
        rcases hp with rfl | hp
        · try dsimp only
          exact ⟨by omega, by omega, by omega⟩
        · exact hb p hp
      · simp only [Allocator.GetFreeSize, Tree.freeSize_eq_sizeSum,
          Tree.insertB_nodesM, sizeSum_cons]
        try dsimp only
        omega

/-!
## Claims about the free-region index
-/

theorem Allocator.Allocate_fst (a : Allocator) (n : Int) {i : Nat}
    {s e : Int} (hf : a.sizeTree.find n = some (i, s, e)) :
    (a.Allocate n).1 = s := by
  simp only [Allocator.Allocate, hf]
  split <;> rfl

/-- C1, counterexample: in the reachable state `exAlloc` (free blocks
`[0,99)` of size 99 and `[100,120)` of size 20), the best-fit block for a
request of 15 is `[100,120)` at offset 100, but `Allocate(15)` returns 0:
`find` prefers any fitting block in the left subtree over a smaller
fitting node, so the returned block is not the one of smallest
sufficient size. -/
theorem c1_counterexample :
    exAlloc.GetBlocks = [(0, 99), (100, 120)] ∧
    (exAlloc.Allocate 15).1 = 0 ∧ ¬(exAlloc.Allocate 15).1 = 100 := by
  decide

/-- C1, amended: `Allocate(n)` returns the start offset of some free block
of size at least `n` (not necessarily the smallest such block, and ties are
not broken by smallest offset), splitting it when larger (the free size
drops by exactly `n`); in the particular scenario S2
(`new(100); allocate(100); free(10,20); free(40,20); free(80,20)`),
`allocate(20)` does return 10. -/
theorem c1_allocate_returns_a_fit :
    (∀ (a : Allocator) (n : Int), ¬(a.Allocate n).1 = -1 →
      ∃ i s e, (i, s, e) ∈ a.sizeTree.nodesM ∧ (a.Allocate n).1 = s ∧
        n ≤ e - s) ∧
    (∀ (a : Allocator) (n : Int), 0 < n → AllocWF a →
      BlocksIn a.sizeTree a.Size → ¬(a.Allocate n).1 = -1 →
      (a.Allocate n).2.GetFreeSize = a.GetFreeSize - n) ∧
    (s2Alloc.Allocate 20).1 = 10 := by
  refine ⟨?_, ?_, by decide⟩
  · intro a n hne
    cases hf : a.sizeTree.find n with
    | none => exact absurd (Allocator.Allocate_none a n hf).1 hne
    | some p =>
      obtain ⟨i, s, e⟩ := p
      obtain ⟨hmem, hsz⟩ := Tree.find_spec hf
      exact ⟨i, s, e, hmem, Allocator.Allocate_fst a n hf, hsz⟩
  · intro a n hn hw hb hne
    cases hf : a.sizeTree.find n with
    | none => exact absurd (Allocator.Allocate_none a n hf).1 hne
    | some p =>
      obtain ⟨i, s, e⟩ := p
      exact (Allocator.Allocate_spec a n hw hb hn hf).2.2.2.2.2.1

/-- C1, witness: the amended statement applied to `NewAllocator 50` and a
request of 20. -/
theorem c1_witness :
    (∃ i s e, (i, s, e) ∈ (NewAllocator 50).sizeTree.nodesM ∧
      ((NewAllocator 50).Allocate 20).1 = s ∧ 20 ≤ e - s) ∧
    ((NewAllocator 50).Allocate 20).2.GetFreeSize =
      (NewAllocator 50).GetFreeSize - 20 :=
  ⟨c1_allocate_returns_a_fit.1 (NewAllocator 50) 20 (by decide),
   c1_allocate_returns_a_fit.2.1 (NewAllocator 50) 20 (by decide)
     (by unfold AllocWF; decide) (by unfold BlocksIn; decide) (by decide)⟩

/-- C2, counterexample: in the reachable state `exAlloc` the block
`[0,99)` has size 99 ≥ 50, yet `Allocate(50)` returns `-1`: the search
declines to visit the left subtree once the root (size 20) is too small,
so NONE is not equivalent to the absence of a sufficiently large free
block. -/
theorem c2_counterexample :
    exAlloc.GetBlocks = [(0, 99), (100, 120)] ∧
    (2, (0 : Int), (99 : Int)) ∈ exAlloc.sizeTree.nodesM ∧
    (50 : Int) ≤ 99 - 0 ∧
    (exAlloc.Allocate 50).1 = -1 := by
  decide

/-- C2, amended: `Allocate(n)` returns `-1` if no free block of size at
least `n` exists, and returns an offset other than `-1` only if such a
block exists; the converse fails (`-1` can also be returned when a
fitting block exists, as the counterexample shows). -/
theorem c2_none_when_no_fit :
    (∀ (a : Allocator) (n : Int),
      (∀ p ∈ a.sizeTree.nodesM, p.2.2 - p.2.1 < n) →
      (a.Allocate n).1 = -1) ∧
    (∀ (a : Allocator) (n : Int), ¬(a.Allocate n).1 = -1 →
      ∃ p ∈ a.sizeTree.nodesM, n ≤ p.2.2 - p.2.1) := by
  constructor
  · intro a n hall
    exact (Allocator.Allocate_none a n (Tree.find_none_of_all_small hall)).1
  · intro a n hne
    cases hf : a.sizeTree.find n with
    | none => exact absurd (Allocator.Allocate_none a n hf).1 hne
    | some p =>
      obtain ⟨i, s, e⟩ := p
      obtain ⟨hmem, hsz⟩ := Tree.find_spec hf
      exact ⟨(i, s, e), hmem, hsz⟩

/-- C2, witness: the amended statement applied to `NewAllocator 0` (whose
only block is empty) with a request of 5, and to `NewAllocator 50` with a
request of 30. -/
theorem c2_witness :
    ((NewAllocator 0).Allocate 5).1 = -1 ∧
    ∃ p ∈ (NewAllocator 50).sizeTree.nodesM, (30 : Int) ≤ p.2.2 - p.2.1 :=
  ⟨c2_none_when_no_fit.1 (NewAllocator 0) 5 (by decide),
   c2_none_when_no_fit.2 (NewAllocator 50) 30 (by decide)⟩

/-- C6: starting from `NewAllocator(1000)`, `Allocate(100)` returns 0,
`Allocate(200)` then returns 100, and after `Free(0,299)` and
`Free(299,1)` the free size is back to 1000 with a single free block
`(0, 1000)` (scenario S1: split then coalesce). -/
theorem c6_split_coalesce :
    ((NewAllocator 1000).Allocate 100).1 = 0 ∧
    (((NewAllocator 1000).Allocate 100).2.Allocate 200).1 = 100 ∧
    s1Alloc.GetFreeSize = 1000 ∧
    s1Alloc.GetBlocks = [(0, 1000)] := by
  decide

/-!
## Claims about the scalable allocator (direct ones)
-/

/-- C5, counterexample: after `NewScalableMemoryAllocator(1024)`, two
`Malloc(1024)` and one `Malloc(3000)`, there are three regions of sizes
1024, 2048 and 4096 — not two: the second `Malloc(1024)` already forced a
2048-byte region, and 3000 then forced a third one of 4096. -/
theorem c5_counterexample :
    s3Scal.children.length = 3 ∧ ¬(s3Scal.children.length = 2) ∧
    (s3Scal.children.map fun c => c.Size) = [1024, 2048, 4096] := by
  decide

/-- C5, amended: after the S3 call sequence the allocator has exactly
three child regions, of sizes 1024, 2048 and 4096; the region created by
`Malloc(3000)` (the third, not the second) has size 4096. -/
theorem c5_three_regions :
    (s3Scal.children.map fun c => c.Size) = [1024, 2048, 4096] ∧
    s3Scal.children.length = 3 := by
  decide

theorem freeScan_none_of_orphan (tl : Nat) (m : Slice)
    (hm : m.owner = none) :
    ∀ cs : List MemoryAllocator, freeScan tl m cs = none := by
  intro cs
  induction cs with
  | nil => rfl
  | cons c rest ih =>
    rw [freeScan, if_neg, ih]
    intro hc
    rw [hm] at hc
    exact Option.noConfusion hc.1

/-- C7: for `n > MaxBlockSize`, `Malloc` bypasses the regions and returns
a fresh orphan slice of length `n` backed by no region, without touching
the allocator state (the count `defer` is not yet registered); `Free` of
any region-less slice returns `false` and leaves the allocator — counters
and all region indices — unchanged. -/
theorem c7_bypass_and_orphan_free :
    (∀ (sma : ScalableMemoryAllocator) (n : Int), n > MaxBlockSize →
      sma.Malloc n = (some ⟨none, 0, n⟩, sma)) ∧
    (∀ (sma : ScalableMemoryAllocator) (m : Slice), m.owner = none →
      ¬m.len = 0 → sma.Free m = some (false, sma)) := by
  constructor
  · intro sma n hgt
    simp [ScalableMemoryAllocator.Malloc, if_pos hgt]
  · intro sma m hm hlen
    rw [ScalableMemoryAllocator.Free, if_neg hlen,
      freeScan_none_of_orphan _ m hm]

/-- C7, witness: the bypass path on a fresh 16-byte scalable allocator
with `n = MaxBlockSize + 1`, and the orphan free of a 5-byte slice. -/
theorem c7_witness :
    (NewScalableMemoryAllocator 16).Malloc (MaxBlockSize + 1) =
      (some ⟨none, 0, MaxBlockSize + 1⟩, NewScalableMemoryAllocator 16) ∧
    (NewScalableMemoryAllocator 16).Free ⟨none, 0, 5⟩ =
      some (false, NewScalableMemoryAllocator 16) :=
  ⟨c7_bypass_and_orphan_free.1 (NewScalableMemoryAllocator 16)
      (MaxBlockSize + 1) (by decide),
   c7_bypass_and_orphan_free.2 (NewScalableMemoryAllocator 16)
      ⟨none, 0, 5⟩ rfl (by decide)⟩

/-- C10: `ScalableMemoryAllocator.Free` computes `&mem[0]` before any
length or ownership check, so a zero-length slice makes it panic
(modelled by `none`) instead of returning `false`; any non-empty slice
reaches the ownership scan and produces a boolean result.  Every `Free`
call thus carries the unstated precondition that its slice is non-empty. -/
theorem c10_free_empty_slice_panics :
    ∀ (sma : ScalableMemoryAllocator) (m : Slice),
      (m.len = 0 → sma.Free m = none) ∧
      (¬m.len = 0 → ∃ r, sma.Free m = some r) := by
  intro sma m
  constructor
  · intro h
    rw [ScalableMemoryAllocator.Free, if_pos h]
  · intro h
    rw [ScalableMemoryAllocator.Free, if_neg h]
    exact ⟨_, rfl⟩

/-- C10, witness: freeing an (otherwise well-formed) empty slice on a
fresh allocator panics; the same slice with length 1 does not. -/
theorem c10_witness :
    (NewScalableMemoryAllocator 8).Free ⟨some 0, 0, 0⟩ = none ∧
    ∃ r, (NewScalableMemoryAllocator 8).Free ⟨some 0, 0, 1⟩ = some r :=
  ⟨(c10_free_empty_slice_panics (NewScalableMemoryAllocator 8)
      ⟨some 0, 0, 0⟩).1 rfl,
   (c10_free_empty_slice_panics (NewScalableMemoryAllocator 8)
      ⟨some 0, 0, 1⟩).2 (by decide)⟩

theorem NewAllocator_GetFreeSize (size : Int) :
    (NewAllocator size).GetFreeSize = size := by
  simp [NewAllocator, Allocator.GetFreeSize, Tree.freeSize]

theorem mkRegion_freeSize (rid : Nat) (size : Int) :
    (mkRegion rid size).allocator.GetFreeSize = size := by
  simp [mkRegion, NewAllocator_GetFreeSize]

/-- C9: `Borrow(n)` with `1 ≤ n ≤ MaxBlockSize` keeps every pre-existing
region (and hence its free index) unchanged — it only consults the
non-mutating `Find`, at most appending a fresh fully-free region — yet
unconditionally adds `n` to `totalMalloc` while leaving `totalFree` and
`sum(Size) - sum(freeSize)` unchanged; so if the conservation equation
held before a `Borrow`, it no longer holds afterwards. -/
theorem c9_borrow_breaks_conservation :
    ∀ (sma : ScalableMemoryAllocator) (n : Int), 1 ≤ n → n ≤ MaxBlockSize →
      (∀ c ∈ sma.children, c ∈ (sma.Borrow n).2.children) ∧
      (sma.Borrow n).2.totalMalloc = sma.totalMalloc + n ∧
      (sma.Borrow n).2.totalFree = sma.totalFree ∧
      sumSizes (sma.Borrow n).2 - sumFree (sma.Borrow n).2 =
        sumSizes sma - sumFree sma ∧
      (sma.totalMalloc - sma.totalFree = sumSizes sma - sumFree sma →
        ¬((sma.Borrow n).2.totalMalloc - (sma.Borrow n).2.totalFree =
          sumSizes (sma.Borrow n).2 - sumFree (sma.Borrow n).2)) := by
  intro sma n h1 hmax
  have hnotgt : ¬n > MaxBlockSize := by omega
  have hmain : (∀ c ∈ sma.children, c ∈ (sma.Borrow n).2.children) ∧
      (sma.Borrow n).2.totalMalloc = sma.totalMalloc + n ∧
      (sma.Borrow n).2.totalFree = sma.totalFree ∧
      sumSizes (sma.Borrow n).2 - sumFree (sma.Borrow n).2 =
        sumSizes sma - sumFree sma := by
    cases hscan : scanFind sma.children n with
    | some m =>
      simp only [ScalableMemoryAllocator.Borrow, if_neg hnotgt, hscan]
      exact ⟨fun c hc => hc, by trivial, by trivial, by trivial⟩
    | none =>
      simp only [ScalableMemoryAllocator.Borrow, if_neg hnotgt, hscan]
      refine ⟨fun c hc => List.mem_append.2 (Or.inl hc), by trivial,
        by trivial, ?_⟩
      simp only [sumSizes, sumFree, List.map_append, List.sum_append]
      simp [mkRegion, NewAllocator_GetFreeSize]
  refine ⟨hmain.1, hmain.2.1, hmain.2.2.1, hmain.2.2.2, ?_⟩
  intro heq
  rw [hmain.2.1, hmain.2.2.1, hmain.2.2.2]
  omega

/-- C9, witness: a single `Borrow(4)` on a fresh 16-byte scalable
allocator adds 4 to `totalMalloc` and falsifies the conservation
equation. -/
theorem c9_witness :
    ((NewScalableMemoryAllocator 16).Borrow 4).2.totalMalloc =
      (NewScalableMemoryAllocator 16).totalMalloc + 4 ∧
    ¬(((NewScalableMemoryAllocator 16).Borrow 4).2.totalMalloc -
        ((NewScalableMemoryAllocator 16).Borrow 4).2.totalFree =
      sumSizes ((NewScalableMemoryAllocator 16).Borrow 4).2 -
        sumFree ((NewScalableMemoryAllocator 16).Borrow 4).2) := by
  have h := c9_borrow_breaks_conservation (NewScalableMemoryAllocator 16) 4
    (by decide) (by decide)
  exact ⟨h.2.1, h.2.2.2.2 (by decide)⟩

/-!
## Helper lemmas for the scalable-allocator invariant
-/

theorem growAux_ge : ∀ (fuel : Nat) (cs n : Int), 1 ≤ cs →
    n ≤ MaxBlockSize → MaxBlockSize ≤ cs * 2 ^ fuel →
    n ≤ growAux fuel cs n := by
  intro fuel
  induction fuel with
  | zero =>
    intro cs n hcs hn hb
    simp only [growAux]
    simp only [pow_zero, mul_one] at hb
    omega
  | succ fuel ih =>
    intro cs n hcs hn hb
    rw [growAux]
    by_cases hlt : cs < MaxBlockSize
    · rw [if_pos hlt]
      by_cases hge : 2 * cs ≥ n
      · simp only [if_pos hge]
        omega
      · simp only [if_neg hge]
        refine ih (2 * cs) n (by omega) hn ?_
        calc MaxBlockSize ≤ cs * 2 ^ (fuel + 1) := hb
          _ = 2 * cs * 2 ^ fuel := by ring
    · rw [if_neg hlt]
      omega

theorem growChild_ge (cs n : Int) (hcs : 1 ≤ cs) (hn : n ≤ MaxBlockSize) :
    n ≤ growChild cs n := by
  refine growAux_ge 64 cs n hcs hn ?_
  calc MaxBlockSize ≤ 1 * 2 ^ 64 := by decide
    _ ≤ cs * 2 ^ 64 := by
        exact mul_le_mul_of_nonneg_right hcs (by positivity)

theorem mkRegion_find (rid : Nat) (csz n : Int) (hle : n ≤ csz) :
    (mkRegion rid csz).allocator.sizeTree.find n = some (0, 0, csz) := by
  show Tree.find (.node .nil 0 0 csz .nil) n = some (0, 0, csz)
  rw [Tree.find, if_pos (by omega)]
  by_cases hx : csz - 0 = n
  · rw [if_pos hx]
  · rw [if_neg hx]
    rfl

theorem mkRegion_AllocWF (rid : Nat) (csz : Int) :
    AllocWF (mkRegion rid csz).allocator := by
  constructor
  · show (Tree.node .nil 0 0 csz .nil).idsM.Nodup
    rw [Tree.idsM_node]
    simp [Tree.idsM_nil]
  · intro i hi
    rw [show (mkRegion rid csz).allocator.sizeTree =
      Tree.node .nil 0 0 csz .nil from rfl, Tree.idsM_node] at hi
    simp [Tree.idsM_nil] at hi
    simp [hi, mkRegion, NewAllocator]

theorem mkRegion_BlocksIn (rid : Nat) (csz : Int) (h : 0 < csz) :
    BlocksIn (mkRegion rid csz).allocator.sizeTree csz := by
  intro p hp
  have : p = (0, 0, csz) := by
    have hp' : p ∈ (Tree.node .nil 0 0 csz .nil).nodesM := hp
    simp [Tree.nodesM] at hp'
    rcases p with ⟨x, y, z⟩
    simp at hp'
    simp [hp']
  rw [this]
  exact ⟨le_rfl, h, le_rfl⟩

theorem liveLen_cons (m : Slice) (live : List Slice) (rid : Nat) :
    liveLen (m :: live) rid =
      (if m.owner = some rid then m.len else 0) + liveLen live rid := by
  by_cases h : m.owner = some rid
  · simp [liveLen, List.filter_cons, h]
  · simp [liveLen, List.filter_cons, h]

theorem liveLen_perm {l₁ l₂ : List Slice} (h : l₁.Perm l₂) (rid : Nat) :
    liveLen l₁ rid = liveLen l₂ rid := by
  unfold liveLen
  exact ((h.filter _).map _).sum_eq

theorem liveLen_erase {m : Slice} {live : List Slice} (hm : m ∈ live)
    (rid : Nat) :
    liveLen (live.erase m) rid =
      liveLen live rid - (if m.owner = some rid then m.len else 0) := by
  have hp : live.Perm (m :: live.erase m) := List.perm_cons_erase hm
  have := liveLen_perm hp rid
  rw [liveLen_cons] at this
  omega

theorem liveLen_zero {live : List Slice} {rid : Nat}
    (h : ∀ x ∈ live, ¬x.owner = some rid) : liveLen live rid = 0 := by
  induction live with
  | nil => rfl
  | cons m rest ih =>
    rw [liveLen_cons, if_neg (h m (by simp))]
    rw [ih fun x hx => h x (by simp [hx])]
    omega

theorem liveLen_nonneg {live : List Slice} {rid : Nat}
    (h : ∀ x ∈ live, x.owner = some rid → 0 ≤ x.len) :
    0 ≤ liveLen live rid := by
  induction live with
  | nil => exact le_refl 0
  | cons m rest ih =>
    rw [liveLen_cons]
    have h2 := ih fun x hx hx' => h x (by simp [hx]) hx'
    by_cases hm : m.owner = some rid
    · rw [if_pos hm]
      have := h m (by simp) hm
      omega
    · rw [if_neg hm]
      omega

theorem liveLen_pos {live : List Slice} {rid : Nat} {m : Slice}
    (hm : m ∈ live) (ho : m.owner = some rid) (hl : 1 ≤ m.len)
    (h : ∀ x ∈ live, x.owner = some rid → 0 ≤ x.len) :
    1 ≤ liveLen live rid := by
  induction live with
  | nil => simp at hm
  | cons a rest ih =>
    rw [liveLen_cons]
    rcases List.mem_cons.1 hm with rfl | hm'
    · rw [if_pos ho]
      have := @liveLen_nonneg rest rid
        fun x hx hx' => h x (by simp [hx]) hx'
      omega
    · have h2 := ih hm' fun x hx hx' => h x (by simp [hx]) hx'
      by_cases ha : a.owner = some rid
      · rw [if_pos ha]
        have := h a (by simp) ha
        omega
      · rw [if_neg ha]
        omega

theorem Tree.freeSize_nonneg {t : Tree} {sz : Int} (hb : BlocksIn t sz) :
    0 ≤ t.freeSize := by
  induction t with
  | nil => exact le_refl 0
  | node l i s e r ihl ihr =>
    have hroot := hb (i, s, e) (by simp [Tree.nodesM])
    dsimp only at hroot
    have hl := ihl fun p hp => hb p (by simp [Tree.nodesM]; tauto)
    have hr := ihr fun p hp => hb p (by simp [Tree.nodesM]; tauto)
    rw [Tree.freeSize]
    omega

theorem Tree.rootSpan_le_freeSize {t : Tree} {sz : Int}
    (hb : BlocksIn t sz) : t.rootSpan ≤ t.freeSize := by
  cases t with
  | nil => exact le_refl 0
  | node l i s e r =>
    have hl := Tree.freeSize_nonneg
      (fun p hp => hb p (by simp [Tree.nodesM]; tauto) : BlocksIn l sz)
    have hr := Tree.freeSize_nonneg
      (fun p hp => hb p (by simp [Tree.nodesM]; tauto) : BlocksIn r sz)
    rw [Tree.rootSpan, Tree.freeSize]
    omega

theorem MemoryAllocator.Malloc_cases (c : MemoryAllocator) (n : Int)
    {sz : Int} (hb : BlocksIn c.allocator.sizeTree sz) :
    (c.Malloc n = (none, c) ∧ c.allocator.sizeTree.find n = none) ∨
    (∃ i s e, c.allocator.sizeTree.find n = some (i, s, e) ∧
      c.Malloc n = (some ⟨some c.regionId, s, n⟩,
        { c with allocator := (c.allocator.Allocate n).2 })) := by
  cases hf : c.allocator.sizeTree.find n with
  | none =>
    left
    obtain ⟨h1, h2⟩ := Allocator.Allocate_none c.allocator n hf
    refine ⟨?_, rfl⟩
    rw [MemoryAllocator.Malloc]
    cases hAl : c.allocator.Allocate n with
    | mk off a' =>
      have hoff : off = -1 := by rw [hAl] at h1; exact h1
      have ha' : a' = c.allocator := by rw [hAl] at h2; exact h2
      subst hoff; subst ha'
      simp
  | some p =>
    obtain ⟨i, s, e⟩ := p
    right
    refine ⟨i, s, e, rfl, ?_⟩
    have hne := Allocator.Allocate_ne_neg_one c.allocator n hb hf
    have hfst := Allocator.Allocate_fst c.allocator n hf
    rw [MemoryAllocator.Malloc]
    cases hAl : c.allocator.Allocate n with
    | mk off a' =>
      have hoff : off = s := by rw [hAl] at hfst; exact hfst
      have hoffne : ¬off = -1 := by rw [hAl] at hne; exact hne
      subst hoff
      simp only [if_neg hoffne]

theorem scanMalloc_spec (n : Int) : ∀ cs : List MemoryAllocator,
    (∀ c ∈ cs, BlocksIn c.allocator.sizeTree c.Size) →
    scanMalloc cs n = (none, cs) ∨
    (∃ pre c post c' m, cs = pre ++ c :: post ∧
      scanMalloc cs n = (some m, pre ++ c' :: post) ∧
      c.Malloc n = (some m, c')) := by
  intro cs
  induction cs with
  | nil =>
    intro _
    left
    rfl
  | cons c rest ih =>
    intro hb
    rcases MemoryAllocator.Malloc_cases c n (hb c (by simp)) with
      ⟨hnone, _⟩ | ⟨i, s, e, hf, hsome⟩
    · rcases ih (fun x hx => hb x (by simp [hx])) with hrest | hrest
      · left
        rw [scanMalloc, hnone, hrest]
      · obtain ⟨pre, c0, post, c0', m, hcs, hscan, hc0⟩ := hrest
        right
        refine ⟨c :: pre, c0, post, c0', m, by rw [hcs]; rfl, ?_, hc0⟩
        rw [scanMalloc, hnone, hscan]
        rfl
    · right
      exact ⟨[], c, rest, _, _, rfl, by rw [scanMalloc, hsome]; rfl, hsome⟩

theorem freeScan_found (tl : Nat) (m : Slice) :
    ∀ (pre : List MemoryAllocator) (c : MemoryAllocator)
      (post : List MemoryAllocator),
      (∀ p ∈ pre, ¬m.owner = some p.regionId) →
      m.owner = some c.regionId →
      0 ≤ m.off → m.off < c.Size → m.off + m.len ≤ c.Size →
      freeScan tl m (pre ++ c :: post) =
        some (if 1 < tl ∧
            ({ c with allocator := c.allocator.Free m.off m.len } :
              MemoryAllocator).allocator.sizeTree.rootSpan = c.Size
          then (pre ++ post, c.Size)
          else (pre ++ { c with allocator := c.allocator.Free m.off m.len } ::
            post, 0)) := by
  intro pre
  induction pre with
  | nil =>
    intro c post _ ho h0 hlt hle
    rw [List.nil_append, freeScan, if_pos ⟨ho, h0, hlt⟩]
    have hfree : c.free m.off m.len =
        (true, { c with allocator := c.allocator.Free m.off m.len }) := by
      rw [MemoryAllocator.free, if_neg (by omega)]
    simp only [hfree]
    split_ifs with h
    · rfl
    · rfl
  | cons p rest ih =>
    intro c post hpre ho h0 hlt hle
    rw [List.cons_append, freeScan,
      if_neg (fun hc => hpre p (by simp) hc.1),
      ih c post (fun x hx => hpre x (by simp [hx])) ho h0 hlt hle]
    split_ifs with h
    · rfl
    · rfl

theorem mkRegion_Malloc_spec (rid : Nat) (csz n : Int) (h1 : 1 ≤ n)
    (hle : n ≤ csz) :
    (mkRegion rid csz).Malloc n = (some ⟨some rid, 0, n⟩,
      { mkRegion rid csz with
        allocator := ((mkRegion rid csz).allocator.Allocate n).2 }) ∧
    ((mkRegion rid csz).allocator.Allocate n).2.GetFreeSize = csz - n ∧
    AllocWF ((mkRegion rid csz).allocator.Allocate n).2 ∧
    BlocksIn ((mkRegion rid csz).allocator.Allocate n).2.sizeTree csz ∧
    ((mkRegion rid csz).allocator.Allocate n).2.Size = csz := by
  have hf := mkRegion_find rid csz n hle
  have hwf := mkRegion_AllocWF rid csz
  have hbi := mkRegion_BlocksIn rid csz (by omega)
  have hbi' : BlocksIn (mkRegion rid csz).allocator.sizeTree
      (mkRegion rid csz).allocator.Size := hbi
  have hspec := Allocator.Allocate_spec (mkRegion rid csz).allocator n
    hwf hbi' (by omega) hf
  rcases MemoryAllocator.Malloc_cases (mkRegion rid csz) n hbi with
    ⟨_, hfind⟩ | ⟨i, s, e, hf', hsome⟩
  · rw [hf] at hfind
    exact absurd hfind (by simp)
  · rw [hf] at hf'
    obtain ⟨rfl, rfl, rfl⟩ : i = 0 ∧ s = 0 ∧ e = csz := by
      have := Option.some.inj hf'
      simp [Prod.ext_iff] at this
      exact ⟨this.1.symm, this.2.1.symm, this.2.2.symm⟩
    refine ⟨hsome, ?_, hspec.2.2.2.1, ?_, ?_⟩
    · rw [hspec.2.2.2.2.2.1, mkRegion_freeSize]
    · have := hspec.2.2.2.2.1
      exact this
    · exact hspec.2.1

theorem regionId_ne_of_nodup {pre post : List MemoryAllocator}
    {c x : MemoryAllocator}
    (hn : ((pre ++ c :: post).map fun y => y.regionId).Nodup)
    (hx : x ∈ pre ∨ x ∈ post) : ¬x.regionId = c.regionId := by
  intro he
  rw [List.map_append, List.map_cons, List.nodup_append] at hn
  rcases hx with hx | hx
  · exact absurd (List.mem_map_of_mem _ hx)
      (fun hc => (hn.2.2 hc (by simp [he])).elim)
  · have h2 := hn.2.1
    rw [List.nodup_cons] at h2
    exact h2.1 (he ▸ List.mem_map_of_mem _ hx)

/-- Preservation of the scalable invariant by `Malloc` with
`1 ≤ n ≤ MaxBlockSize`, together with totality: `Malloc` always returns a
region-backed slice of length `n`. -/
theorem SInv_malloc {sma : ScalableMemoryAllocator} {live : List Slice}
    (hinv : SInv sma live) (n : Int) (h1 : 1 ≤ n) (hmax : n ≤ MaxBlockSize) :
    ∃ m sma', sma.Malloc n = (some m, sma') ∧ m.len = n ∧
      ¬m.owner = none ∧ SInv sma' (m :: live) := by
  have hgt : ¬n > MaxBlockSize := by omega
  rcases scanMalloc_spec n sma.children
      (fun c hc => (hinv.blocksOk c hc).1) with hscan | hscan
  · -- every existing region failed: a fresh region is created
    obtain ⟨ncs, hncs⟩ : ∃ v, v = growChild sma.childSize n := ⟨_, rfl⟩
    have hnle : n ≤ ncs := by
      rw [hncs]
      exact growChild_ge _ _ hinv.childPos hmax
    obtain ⟨hfresh, hfreshFS, hfreshWF, hfreshBI, hfreshSz⟩ :=
      mkRegion_Malloc_spec sma.nextRegionId ncs n h1 hnle
    obtain ⟨child', hchild'⟩ : ∃ ch : MemoryAllocator,
        ch = { mkRegion sma.nextRegionId ncs with
          allocator :=
            ((mkRegion sma.nextRegionId ncs).allocator.Allocate n).2 } :=
      ⟨_, rfl⟩
    obtain ⟨sma2, hsma2⟩ : ∃ s2 : ScalableMemoryAllocator,
        s2 = { children := sma.children ++ [child'],
               totalMalloc := sma.totalMalloc + n,
               totalFree := sma.totalFree,
               size := sma.size + ncs, childSize := ncs,
               nextRegionId := sma.nextRegionId + 1 } := ⟨_, rfl⟩
    have hcrid : child'.regionId = sma.nextRegionId := by
      rw [hchild']
      try rfl
    have hcsize : child'.Size = ncs := by
      rw [hchild']
      try rfl
    have hcalloc : child'.allocator =
        ((mkRegion sma.nextRegionId ncs).allocator.Allocate n).2 := by
      rw [hchild']
      try rfl
    have hch2 : sma2.children = sma.children ++ [child'] := by rw [hsma2] <;> try rfl
    have htm2 : sma2.totalMalloc = sma.totalMalloc + n := by rw [hsma2] <;> try rfl
    have htf2 : sma2.totalFree = sma.totalFree := by rw [hsma2] <;> try rfl
    have hcs2 : sma2.childSize = ncs := by rw [hsma2] <;> try rfl
    have hnr2 : sma2.nextRegionId = sma.nextRegionId + 1 := by rw [hsma2] <;> try rfl
    have hM : sma.Malloc n = (some ⟨some sma.nextRegionId, 0, n⟩, sma2) := by
      have hfresh' := hfresh
      rw [hncs] at hfresh'
      rw [hsma2, hchild', hncs]
      simp only [ScalableMemoryAllocator.Malloc, if_neg hgt, hscan, hfresh']
    have hnotlive : ∀ x ∈ live, ¬x.owner = some sma.nextRegionId := by
      intro x hx he
      obtain ⟨c0, hc0, ho0, _⟩ := hinv.liveOk x hx
      have := hinv.idsLt c0 hc0
      rw [ho0] at he
      have : c0.regionId = sma.nextRegionId := Option.some.inj he
      omega
    have hfs : child'.allocator.GetFreeSize = ncs - n := by
      rw [hcalloc, hfreshFS]
    have hasz : child'.allocator.Size = ncs := by
      rw [hcalloc, hfreshSz]
    refine ⟨⟨some sma.nextRegionId, 0, n⟩, sma2, hM, rfl, by simp, ?_⟩
    refine
      { idsNodup := ?_, idsLt := ?_, treeWF := ?_, blocksOk := ?_,
        ledger := ?_, liveOk := ?_, childPos := ?_, consEq := ?_ }
    · rw [hch2, List.map_append, List.nodup_append]
      refine ⟨hinv.idsNodup, by simp, ?_⟩
      intro a ha hb
      simp only [List.map_cons, List.map_nil, List.mem_singleton] at hb
      obtain ⟨c0, hc0, hc0'⟩ := List.mem_map.1 ha
      have := hinv.idsLt c0 hc0
      rw [hb, hcrid] at hc0'
      omega
    · intro c hc
      rw [hch2] at hc
      rw [hnr2]
      rcases List.mem_append.1 hc with hc | hc
      · have := hinv.idsLt c hc
        omega
      · simp only [List.mem_singleton] at hc
        rw [hc, hcrid]
        omega
    · intro c hc
      rw [hch2] at hc
      rcases List.mem_append.1 hc with hc | hc
      · exact hinv.treeWF c hc
      · simp only [List.mem_singleton] at hc
        rw [hc, hcalloc]
        exact hfreshWF
    · intro c hc
      rw [hch2] at hc
      rcases List.mem_append.1 hc with hc | hc
      · exact hinv.blocksOk c hc
      · simp only [List.mem_singleton] at hc
        subst hc
        refine ⟨?_, by rw [hasz, hcsize]⟩
        rw [hcalloc, hcsize]
        exact hfreshBI
    · intro c hc
      rw [hch2] at hc
      rcases List.mem_append.1 hc with hc | hc
      · rw [liveLen_cons, if_neg]
        · have := hinv.ledger c hc
          omega
        · intro he
          have h2 := Option.some.inj he
          have := hinv.idsLt c hc
          omega
      · simp only [List.mem_singleton] at hc
        subst hc
        rw [liveLen_cons, if_pos (by rw [hcrid]), hcrid,
          liveLen_zero hnotlive, hcsize]
        try dsimp only
        omega
    · intro x hx
      rcases List.mem_cons.1 hx with rfl | hx
      · refine ⟨child',
          (by rw [hch2]; exact List.mem_append.2 (Or.inr (by simp))), ?_⟩
        rw [hcrid, hcsize]
        refine ⟨rfl, le_rfl, h1, ?_⟩
        show (0 : Int) + n ≤ ncs
        omega
      · obtain ⟨c0, hc0, hrest⟩ := hinv.liveOk x hx
        exact ⟨c0,
          (by rw [hch2]; exact List.mem_append.2 (Or.inl hc0)), hrest⟩
    · rw [hcs2]
      omega
    · have hS : sumSizes sma2 = sumSizes sma + ncs := by
        unfold sumSizes
        rw [hch2, List.map_append, List.sum_append]
        simp [hcsize]
      have hF : sumFree sma2 = sumFree sma + (ncs - n) := by
        unfold sumFree
        rw [hch2, List.map_append, List.sum_append]
        simp [hfs]
      rw [hS, hF, htm2, htf2]
      have := hinv.consEq
      omega
  · -- some existing region satisfied the request
    obtain ⟨pre, c, post, c', m0, hchildren, hscan, hc⟩ := hscan
    have hcmem : c ∈ sma.children := by
      rw [hchildren]
      exact List.mem_append.2 (Or.inr (by simp))
    rcases MemoryAllocator.Malloc_cases c n (hinv.blocksOk c hcmem).1 with
      ⟨hnone, _⟩ | ⟨i, s, e, hf, hsome⟩
    · rw [hnone] at hc
      exact absurd (congrArg Prod.fst hc) (by simp)
    · rw [hsome] at hc
      have hm0 : some (⟨some c.regionId, s, n⟩ : Slice) = some m0 :=
        congrArg Prod.fst hc
      have hc' : ({ c with allocator := (c.allocator.Allocate n).2 } :
          MemoryAllocator) = c' := congrArg Prod.snd hc
      obtain rfl : m0 = ⟨some c.regionId, s, n⟩ := (Option.some.inj hm0).symm
      have hbi : BlocksIn c.allocator.sizeTree c.allocator.Size := by
        rw [(hinv.blocksOk c hcmem).2]
        exact (hinv.blocksOk c hcmem).1
      have hspec := Allocator.Allocate_spec c.allocator n
        (hinv.treeWF c hcmem) hbi (by omega) hf
      have hc'rid : c'.regionId = c.regionId := by rw [← hc']
      have hc'Size : c'.Size = c.Size := by rw [← hc']
      have hc'alloc : c'.allocator = (c.allocator.Allocate n).2 := by
        rw [← hc']
      have hc'fs : c'.allocator.GetFreeSize =
          c.allocator.GetFreeSize - n := by
        rw [hc'alloc, hspec.2.2.2.2.2.1]
      have hoffb : 0 ≤ s ∧ s + n ≤ c.Size := by
        have h := hspec.2.2.2.2.2.2
        rw [(hinv.blocksOk c hcmem).2] at h
        exact h
      have hdistinct : ∀ x : MemoryAllocator, x ∈ pre ∨ x ∈ post →
          ¬x.regionId = c.regionId := by
        intro x hx
        exact regionId_ne_of_nodup (hchildren ▸ hinv.idsNodup) hx
      obtain ⟨sma2, hsma2⟩ : ∃ s2 : ScalableMemoryAllocator,
          s2 = { children := pre ++ c' :: post,
                 totalMalloc := sma.totalMalloc + n,
                 totalFree := sma.totalFree, size := sma.size,
                 childSize := sma.childSize,
                 nextRegionId := sma.nextRegionId } := ⟨_, rfl⟩
      have hch2 : sma2.children = pre ++ c' :: post := by rw [hsma2] <;> try rfl
      have htm2 : sma2.totalMalloc = sma.totalMalloc + n := by rw [hsma2] <;> try rfl
      have htf2 : sma2.totalFree = sma.totalFree := by rw [hsma2] <;> try rfl
      have hcs2 : sma2.childSize = sma.childSize := by rw [hsma2] <;> try rfl
      have hnr2 : sma2.nextRegionId = sma.nextRegionId := by rw [hsma2] <;> try rfl
      have hM : sma.Malloc n = (some ⟨some c.regionId, s, n⟩, sma2) := by
        rw [hsma2]
        simp only [ScalableMemoryAllocator.Malloc, if_neg hgt, hscan]
      refine ⟨⟨some c.regionId, s, n⟩, sma2, hM, rfl, by simp, ?_⟩
      refine
        { idsNodup := ?_, idsLt := ?_, treeWF := ?_, blocksOk := ?_,
          ledger := ?_, liveOk := ?_, childPos := ?_, consEq := ?_ }
      · rw [hch2]
        have heq : (pre ++ c' :: post).map (fun y => y.regionId) =
            sma.children.map fun y => y.regionId := by
          rw [hchildren]
          simp [hc'rid]
        rw [heq]
        exact hinv.idsNodup
      · intro x hx
        rw [hch2] at hx
        rw [hnr2]
        rcases List.mem_append.1 hx with hx | hx
        · exact hinv.idsLt x (hchildren ▸ List.mem_append.2 (Or.inl hx))
        · rcases List.mem_cons.1 hx with rfl | hx
          · rw [hc'rid]
            exact hinv.idsLt c hcmem
          · exact hinv.idsLt x
              (hchildren ▸ List.mem_append.2 (Or.inr (by simp [hx])))
      · intro x hx
        rw [hch2] at hx
        rcases List.mem_append.1 hx with hx | hx
        · exact hinv.treeWF x (hchildren ▸ List.mem_append.2 (Or.inl hx))
        · rcases List.mem_cons.1 hx with rfl | hx
          · rw [hc'alloc]
            exact hspec.2.2.2.1
          · exact hinv.treeWF x
              (hchildren ▸ List.mem_append.2 (Or.inr (by simp [hx])))
      · intro x hx
        rw [hch2] at hx
        rcases List.mem_append.1 hx with hx | hx
        · exact hinv.blocksOk x (hchildren ▸ List.mem_append.2 (Or.inl hx))
        · rcases List.mem_cons.1 hx with rfl | hx
          · constructor
            · rw [hc'alloc, hc'Size, ← (hinv.blocksOk c hcmem).2]
              exact hspec.2.2.2.2.1
            · rw [hc'alloc, hc'Size, hspec.2.1]
              exact (hinv.blocksOk c hcmem).2
          · exact hinv.blocksOk x
              (hchildren ▸ List.mem_append.2 (Or.inr (by simp [hx])))
      · intro x hx
        rw [hch2] at hx
        rcases List.mem_append.1 hx with hx | hx
        · rw [liveLen_cons, if_neg]
          · have := hinv.ledger x
              (hchildren ▸ List.mem_append.2 (Or.inl hx))
            omega
          · intro he
            exact hdistinct x (Or.inl hx) (Option.some.inj he).symm
        · rcases List.mem_cons.1 hx with rfl | hx
          · rw [liveLen_cons, if_pos (by rw [hc'rid]), hc'rid,
              hc'fs, hc'Size]
            have := hinv.ledger c hcmem
            try dsimp only
            omega
          · rw [liveLen_cons, if_neg]
            · have := hinv.ledger x
                (hchildren ▸ List.mem_append.2 (Or.inr (by simp [hx])))
              omega
            · intro he
              exact hdistinct x (Or.inr hx) (Option.some.inj he).symm
      · intro x hx
        rcases List.mem_cons.1 hx with rfl | hx
        · refine ⟨c',
            (by rw [hch2]; exact List.mem_append.2 (Or.inr (by simp))), ?_⟩
          rw [hc'rid, hc'Size]
          exact ⟨rfl, hoffb.1, h1, hoffb.2⟩
        · obtain ⟨c0, hc0, ho0, hrest⟩ := hinv.liveOk x hx
          rw [hchildren] at hc0
          rcases List.mem_append.1 hc0 with hc0 | hc0
          · exact ⟨c0,
              (by rw [hch2]; exact List.mem_append.2 (Or.inl hc0)),
              ho0, hrest⟩
          · rcases List.mem_cons.1 hc0 with rfl | hc0
            · refine ⟨c',
                (by rw [hch2]; exact List.mem_append.2 (Or.inr (by simp))),
                ?_⟩
              rw [hc'rid, hc'Size]
              exact ⟨ho0, hrest⟩
            · refine ⟨c0, ?_, ho0, hrest⟩
              rw [hch2]
              exact List.mem_append.2 (Or.inr (by simp [hc0]))
      · rw [hcs2]
        exact hinv.childPos
      · have hS : sumSizes sma2 = sumSizes sma := by
          unfold sumSizes
          rw [hch2, hchildren]
          simp [hc'Size]
        have hF : sumFree sma2 = sumFree sma - n := by
          unfold sumFree
          rw [hch2, hchildren]
          simp only [List.map_append, List.map_cons, List.sum_append,
            List.sum_cons]
          rw [hc'fs]
          ring
        rw [hS, hF, htm2, htf2]
        have := hinv.consEq
        omega

/-- Preservation of the scalable invariant by `Free` of a live slice.
The freed length is credited back to the owning region's free ledger; when
the region is reclaimed, the root block spanning the whole region forces
the region's live length to zero, so no outstanding slice is orphaned. -/
theorem SInv_free {sma : ScalableMemoryAllocator} {live : List Slice}
    (hinv : SInv sma live) {m : Slice} (hm : m ∈ live)
    {b : Bool} {sma' : ScalableMemoryAllocator}
    (hF : sma.Free m = some (b, sma')) :
    SInv sma' (live.erase m) := by
  obtain ⟨c, hcmem, ho, hoff0, hlen1, hoffe⟩ := hinv.liveOk m hm
  obtain ⟨pre, post, hchildren⟩ := List.append_of_mem hcmem
  have hdistinct : ∀ x : MemoryAllocator, x ∈ pre ∨ x ∈ post →
      ¬x.regionId = c.regionId :=
    fun x hx => regionId_ne_of_nodup (hchildren ▸ hinv.idsNodup) hx
  have hpreno : ∀ p ∈ pre, ¬m.owner = some p.regionId := by
    intro p hp he
    rw [ho] at he
    exact hdistinct p (Or.inl hp) (Option.some.inj he).symm
  have hofflt : m.off < c.Size := by omega
  have hbi : BlocksIn c.allocator.sizeTree c.allocator.Size := by
    rw [(hinv.blocksOk c hcmem).2]
    exact (hinv.blocksOk c hcmem).1
  have hspec := Allocator.Free_spec c.allocator m.off m.len
    (hinv.treeWF c hcmem) hbi (by omega) hoff0
    (by rw [(hinv.blocksOk c hcmem).2]; exact hoffe)
  have hlen0 : ¬m.len = 0 := by omega
  rw [ScalableMemoryAllocator.Free, if_neg hlen0] at hF
  rw [hchildren] at hF
  have hfs := freeScan_found (pre ++ c :: post).length m pre c post
    hpreno ho hoff0 hofflt hoffe
  obtain ⟨c2, hc2⟩ : ∃ v : MemoryAllocator,
      v = { c with allocator := c.allocator.Free m.off m.len } := ⟨_, rfl⟩
  have hc2a : c2.allocator = c.allocator.Free m.off m.len := by
    rw [hc2]
  have hc2S : c2.Size = c.Size := by rw [hc2] <;> try rfl
  have hc2r : c2.regionId = c.regionId := by rw [hc2] <;> try rfl
  have hmemback : ∀ x : MemoryAllocator, x ∈ pre ∨ x ∈ post →
      x ∈ sma.children := by
    intro x hx
    rw [hchildren]
    rcases hx with hx | hx
    · exact List.mem_append.2 (Or.inl hx)
    · exact List.mem_append.2 (Or.inr (by simp [hx]))
  have hnne : ∀ x : MemoryAllocator, x ∈ pre ∨ x ∈ post →
      liveLen (live.erase m) x.regionId = liveLen live x.regionId := by
    intro x hx
    rw [liveLen_erase hm, if_neg]
    · omega
    · intro he
      rw [ho] at he
      exact hdistinct x hx (Option.some.inj he).symm
  by_cases hcond : 1 < (pre ++ c :: post).length ∧
      ({ c with allocator := c.allocator.Free m.off m.len } :
        MemoryAllocator).allocator.sizeTree.rootSpan = c.Size
  · -- the freed region's root block spans the region: it is reclaimed
    rw [if_pos hcond] at hfs
    simp only [hfs] at hF
    have hs : sma' = { children := pre ++ post,
                       totalMalloc := sma.totalMalloc,
                       totalFree := sma.totalFree + m.len,
                       size := sma.size - c.Size,
                       childSize := sma.childSize,
                       nextRegionId := sma.nextRegionId } :=
      (congrArg Prod.snd (Option.some.inj hF)).symm
    have hch2 : sma'.children = pre ++ post := by rw [hs] <;> try rfl
    have htm2 : sma'.totalMalloc = sma.totalMalloc := by rw [hs] <;> try rfl
    have htf2 : sma'.totalFree = sma.totalFree + m.len := by
      rw [hs] <;> try rfl
    have hcs2 : sma'.childSize = sma.childSize := by rw [hs] <;> try rfl
    have hroot : (c.allocator.Free m.off m.len).sizeTree.rootSpan =
        c.Size := hcond.2
    have hfs2 : (c.allocator.Free m.off m.len).GetFreeSize =
        c.allocator.GetFreeSize + m.len := hspec.2.2.2.1
    have herasenn : ∀ x ∈ live.erase m, x.owner = some c.regionId →
        0 ≤ x.len := by
      intro x hx _
      obtain ⟨c0, _, _, _, hl0, _⟩ :=
        hinv.liveOk x (List.mem_of_mem_erase hx)
      omega
    have hle : (c.allocator.Free m.off m.len).sizeTree.rootSpan ≤
        (c.allocator.Free m.off m.len).GetFreeSize :=
      Tree.rootSpan_le_freeSize hspec.2.2.1
    have hzero : liveLen (live.erase m) c.regionId = 0 := by
      have h1 := hinv.ledger c hcmem
      have h2 := liveLen_erase hm c.regionId
      rw [if_pos ho] at h2
      have h3 := liveLen_nonneg herasenn
      rw [hroot, hfs2] at hle
      omega
    have hnone_c : ∀ x ∈ live.erase m, ¬x.owner = some c.regionId := by
      intro x hx he
      obtain ⟨c0, _, _, _, hl0, _⟩ :=
        hinv.liveOk x (List.mem_of_mem_erase hx)
      have := liveLen_pos hx he hl0 herasenn
      omega
    refine
      { idsNodup := ?_, idsLt := ?_, treeWF := ?_, blocksOk := ?_,
        ledger := ?_, liveOk := ?_, childPos := ?_, consEq := ?_ }
    · rw [hch2]
      have hsub : (pre ++ post).Sublist (pre ++ c :: post) :=
        List.Sublist.append (List.Sublist.refl pre)
          (List.sublist_cons_self c post)
      exact List.Nodup.sublist (hsub.map _) (hchildren ▸ hinv.idsNodup)
    · intro x hx
      rw [hch2] at hx
      have hs2 : sma'.nextRegionId = sma.nextRegionId := by
        rw [hs] <;> try rfl
      rw [hs2]
      exact hinv.idsLt x (hmemback x (List.mem_append.1 hx))
    · intro x hx
      rw [hch2] at hx
      exact hinv.treeWF x (hmemback x (List.mem_append.1 hx))
    · intro x hx
      rw [hch2] at hx
      exact hinv.blocksOk x (hmemback x (List.mem_append.1 hx))
    · intro x hx
      rw [hch2] at hx
      rw [hnne x (List.mem_append.1 hx)]
      exact hinv.ledger x (hmemback x (List.mem_append.1 hx))
    · intro x hx
      obtain ⟨c0, hc0, ho0, hrest⟩ :=
        hinv.liveOk x (List.mem_of_mem_erase hx)
      rw [hchildren] at hc0
      rcases List.mem_append.1 hc0 with hc0 | hc0
      · refine ⟨c0, ?_, ho0, hrest⟩
        rw [hch2]
        exact List.mem_append.2 (Or.inl hc0)
      · rcases List.mem_cons.1 hc0 with rfl | hc0
        · exact absurd ho0 (hnone_c x hx)
        · refine ⟨c0, ?_, ho0, hrest⟩
          rw [hch2]
          exact List.mem_append.2 (Or.inr hc0)
    · rw [hcs2]
      exact hinv.childPos
    · have hcfs : c.allocator.GetFreeSize + m.len = c.Size := by
        have h1 := hinv.ledger c hcmem
        have h2 := liveLen_erase hm c.regionId
        rw [if_pos ho] at h2
        omega
      have hS : sumSizes sma' = sumSizes sma - c.Size := by
        unfold sumSizes
        rw [hch2, hchildren]
        simp only [List.map_append, List.map_cons, List.sum_append,
          List.sum_cons]
        ring
      have hFsum : sumFree sma' = sumFree sma - c.allocator.GetFreeSize := by
        unfold sumFree
        rw [hch2, hchildren]
        simp only [List.map_append, List.map_cons, List.sum_append,
          List.sum_cons]
        ring
      rw [hS, hFsum, htm2, htf2]
      have := hinv.consEq
      omega
  · -- no reclamation: the freed child stays in place
    rw [if_neg hcond] at hfs
    rw [← hc2] at hfs
    simp only [hfs] at hF
    have hs : sma' = { children := pre ++ c2 :: post,
                       totalMalloc := sma.totalMalloc,
                       totalFree := sma.totalFree + m.len,
                       size := sma.size - 0,
                       childSize := sma.childSize,
                       nextRegionId := sma.nextRegionId } :=
      (congrArg Prod.snd (Option.some.inj hF)).symm
    have hch2 : sma'.children = pre ++ c2 :: post := by rw [hs] <;> try rfl
    have htm2 : sma'.totalMalloc = sma.totalMalloc := by rw [hs] <;> try rfl
    have htf2 : sma'.totalFree = sma.totalFree + m.len := by
      rw [hs] <;> try rfl
    have hcs2 : sma'.childSize = sma.childSize := by rw [hs] <;> try rfl
    have hc2fs : c2.allocator.GetFreeSize =
        c.allocator.GetFreeSize + m.len := by
      rw [hc2a]
      exact hspec.2.2.2.1
    refine
      { idsNodup := ?_, idsLt := ?_, treeWF := ?_, blocksOk := ?_,
        ledger := ?_, liveOk := ?_, childPos := ?_, consEq := ?_ }
    · rw [hch2]
      have heq : (pre ++ c2 :: post).map (fun y => y.regionId) =
          sma.children.map fun y => y.regionId := by
        rw [hchildren]
        simp [hc2r]
      rw [heq]
      exact hinv.idsNodup
    · intro x hx
      rw [hch2] at hx
      have hs2 : sma'.nextRegionId = sma.nextRegionId := by
        rw [hs] <;> try rfl
      rw [hs2]
      rcases List.mem_append.1 hx with hx | hx
      · exact hinv.idsLt x (hmemback x (Or.inl hx))
      · rcases List.mem_cons.1 hx with rfl | hx
        · rw [hc2r]
          exact hinv.idsLt c hcmem
        · exact hinv.idsLt x (hmemback x (Or.inr hx))
    · intro x hx
      rw [hch2] at hx
      rcases List.mem_append.1 hx with hx | hx
      · exact hinv.treeWF x (hmemback x (Or.inl hx))
      · rcases List.mem_cons.1 hx with rfl | hx
        · rw [hc2a]
          exact hspec.2.1
        · exact hinv.treeWF x (hmemback x (Or.inr hx))
    · intro x hx
      rw [hch2] at hx
      rcases List.mem_append.1 hx with hx | hx
      · exact hinv.blocksOk x (hmemback x (Or.inl hx))
      · rcases List.mem_cons.1 hx with rfl | hx
        · constructor
          · rw [hc2a, hc2S, ← (hinv.blocksOk c hcmem).2]
            exact hspec.2.2.1
          · rw [hc2a, hc2S, hspec.1]
            exact (hinv.blocksOk c hcmem).2
        · exact hinv.blocksOk x (hmemback x (Or.inr hx))
    · intro x hx
      rw [hch2] at hx
      rcases List.mem_append.1 hx with hx | hx
      · rw [hnne x (Or.inl hx)]
        exact hinv.ledger x (hmemback x (Or.inl hx))
      · rcases List.mem_cons.1 hx with rfl | hx
        · rw [hc2fs, hc2S, hc2r]
          have h2 := liveLen_erase hm c.regionId
          rw [if_pos ho] at h2
          rw [h2]
          have := hinv.ledger c hcmem
          omega
        · rw [hnne x (Or.inr hx)]
          exact hinv.ledger x (hmemback x (Or.inr hx))
    · intro x hx
      obtain ⟨c0, hc0, ho0, hrest⟩ :=
        hinv.liveOk x (List.mem_of_mem_erase hx)
      rw [hchildren] at hc0
      rcases List.mem_append.1 hc0 with hc0 | hc0
      · refine ⟨c0, ?_, ho0, hrest⟩
        rw [hch2]
        exact List.mem_append.2 (Or.inl hc0)
      · rcases List.mem_cons.1 hc0 with rfl | hc0
        · refine ⟨c2, ?_, ?_⟩
          · rw [hch2]
            exact List.mem_append.2 (Or.inr (by simp))
          · rw [hc2r, hc2S]
            exact ⟨ho0, hrest⟩
        · refine ⟨c0, ?_, ho0, hrest⟩
          rw [hch2]
          exact List.mem_append.2 (Or.inr (by simp [hc0]))
    · rw [hcs2]
      exact hinv.childPos
    · have hS : sumSizes sma' = sumSizes sma := by
        unfold sumSizes
        rw [hch2, hchildren]
        simp [hc2S]
      have hFsum : sumFree sma' = sumFree sma + m.len := by
        unfold sumFree
        rw [hch2, hchildren]
        simp only [List.map_append, List.map_cons, List.sum_append,
          List.sum_cons]
        rw [hc2fs]
        ring
      rw [hS, hFsum, htm2, htf2]
      have := hinv.consEq
      omega

/-- The invariant holds in the initial state produced by
`NewScalableMemoryAllocator` for a positive size. -/
theorem SInv_init (size : Int) (h : 1 ≤ size) :
    SInv (NewScalableMemoryAllocator size) [] := by
  refine
    { idsNodup := by simp [NewScalableMemoryAllocator],
      idsLt := ?_, treeWF := ?_, blocksOk := ?_, ledger := ?_,
      liveOk := by simp, childPos := h, consEq := ?_ }
  · intro c hc
    simp only [NewScalableMemoryAllocator, List.mem_singleton] at hc
    subst hc
    show (0 : Nat) < 1
    omega
  · intro c hc
    simp only [NewScalableMemoryAllocator, List.mem_singleton] at hc
    subst hc
    exact mkRegion_AllocWF 0 size
  · intro c hc
    simp only [NewScalableMemoryAllocator, List.mem_singleton] at hc
    subst hc
    exact ⟨mkRegion_BlocksIn 0 size (by omega), rfl⟩
  · intro c hc
    simp only [NewScalableMemoryAllocator, List.mem_singleton] at hc
    subst hc
    rw [mkRegion_freeSize]
    show size + liveLen [] (mkRegion 0 size).regionId = size
    rw [liveLen_zero (by simp)]
    omega
  · show (0 : Int) - 0 =
      sumSizes (NewScalableMemoryAllocator size) -
        sumFree (NewScalableMemoryAllocator size)
    simp only [sumSizes, sumFree, NewScalableMemoryAllocator,
      mkRegion_freeSize, List.map_cons, List.map_nil, List.sum_cons,
      List.sum_nil]
    show (0 : Int) - 0 = ((mkRegion 0 size).Size + 0) - (size + 0)
    show (0 : Int) - 0 = (size + 0) - (size + 0)
    omega

/-- Every reachable state of a scalable allocator, together with its list
of outstanding slices, satisfies the invariant `SInv`. -/
theorem SReach_SInv {sma : ScalableMemoryAllocator} {live : List Slice}
    (h : SReach sma live) : SInv sma live := by
  induction h with
  | init size hsz => exact SInv_init size hsz
  | malloc sma live n m sma' _ h1 hmax hM ih =>
    obtain ⟨m2, sma2, hM2, _, _, hinv2⟩ := SInv_malloc ih n h1 hmax
    rw [hM] at hM2
    have hm2 : m2 = m := Option.some.inj (congrArg Prod.fst hM2).symm
    have hs2 : sma2 = sma' := (congrArg Prod.snd hM2).symm
    rw [hm2, hs2] at hinv2
    exact hinv2
  | free sma live m b sma' _ hm hF ih =>
    exact SInv_free ih hm hF

/-- C3: after any sequence of `Malloc` (with `1 ≤ n ≤ MaxBlockSize`) and
`Free` (of a live, previously returned slice) calls on one
`ScalableMemoryAllocator`, `totalMalloc - totalFree` equals the sum of the
sizes of all child regions minus the sum of their free sizes. -/
theorem c3_conservation {sma : ScalableMemoryAllocator} {live : List Slice}
    (h : SReach sma live) :
    sma.totalMalloc - sma.totalFree = sumSizes sma - sumFree sma :=
  (SReach_SInv h).consEq

theorem c3_witness :
    ((NewScalableMemoryAllocator 8).Malloc 5).2.totalMalloc -
      ((NewScalableMemoryAllocator 8).Malloc 5).2.totalFree =
    sumSizes ((NewScalableMemoryAllocator 8).Malloc 5).2 -
      sumFree ((NewScalableMemoryAllocator 8).Malloc 5).2 :=
  c3_conservation (SReach.malloc _ _ 5 ⟨some 0, 0, 5⟩ _
    (SReach.init 8 (by decide)) (by decide) (by decide) (by decide))

/-- C4: on every reachable `ScalableMemoryAllocator` state (in particular
on every fresh `NewScalableMemoryAllocator size` with `size ≥ 1`), `Malloc n`
with `1 ≤ n ≤ MaxBlockSize` cannot fail: it returns a region-backed
(non-nil) slice of length exactly `n`, growing the allocator with a fresh
region when no existing region can satisfy the request. -/
theorem c4_malloc_cannot_fail {sma : ScalableMemoryAllocator}
    {live : List Slice} (h : SReach sma live) (n : Int) (h1 : 1 ≤ n)
    (hmax : n ≤ MaxBlockSize) :
    ∃ m sma', sma.Malloc n = (some m, sma') ∧ m.len = n ∧
      ¬m.owner = none := by
  obtain ⟨m, sma', hM, hlen, howner, _⟩ :=
    SInv_malloc (SReach_SInv h) n h1 hmax
  exact ⟨m, sma', hM, hlen, howner⟩

theorem c4_witness :
    ∃ m sma', (NewScalableMemoryAllocator 8).Malloc 9 = (some m, sma') ∧
      m.len = 9 ∧ ¬m.owner = none :=
  c4_malloc_cannot_fail (SReach.init 8 (by decide)) 9 (by decide)
    (by decide)

/-!
## Arithmetic of the implicit complete binary tree

Node `i` has one-based index `i+1`; the parent halves the one-based index,
so `j` lies under `i` exactly when some iterated halving of `j+1` yields
`i+1`, and the depth of `i` is the bit length of `i+1` minus one.
-/

theorem leafCount_eq : leafCount = 2 ^ 19 := by decide

theorem treeLen_eq : treeLen = 2 ^ 20 - 1 := by decide

theorem inSub_refl (i : Nat) : inSub i i := ⟨0, by simp⟩

theorem inSub_left (i : Nat) : inSub i (leftChild i) :=
  ⟨1, by simp only [leftChild, pow_one]; omega⟩

theorem inSub_right (i : Nat) : inSub i (rightChild i) :=
  ⟨1, by simp only [rightChild, pow_one]; omega⟩

theorem inSub_trans {i j k : Nat} (h1 : inSub i j) (h2 : inSub j k) :
    inSub i k := by
  obtain ⟨t, ht⟩ := h1
  obtain ⟨s, hs⟩ := h2
  exact ⟨s + t, by rw [pow_add, ← Nat.div_div_eq_div_mul, hs, ht]⟩

theorem inSub_depth {i j t : Nat} (h : (j + 1) / 2 ^ t = i + 1) :
    depth j = depth i + t := by
  have hlo : 2 ^ depth i ≤ i + 1 := Nat.pow_log_le_self 2 (by omega)
  have hhi : i + 1 < 2 ^ (depth i + 1) :=
    Nat.lt_pow_succ_log_self (by norm_num) (i + 1)
  have hp : 0 < (2 : Nat) ^ t := Nat.pos_pow_of_pos t (by norm_num)
  have h1 : (i + 1) * 2 ^ t ≤ j + 1 := by
    have := (Nat.le_div_iff_mul_le hp).1 (le_of_eq h.symm)
    omega
  have h2 : j + 1 < (i + 2) * 2 ^ t := by
    have := (Nat.div_lt_iff_lt_mul hp).1 (by omega : (j + 1) / 2 ^ t < i + 2)
    omega
  refine Nat.log_eq_of_pow_le_of_lt_pow ?_ ?_
  · calc 2 ^ (depth i + t) = 2 ^ depth i * 2 ^ t := by rw [pow_add]
    _ ≤ (i + 1) * 2 ^ t := Nat.mul_le_mul_right _ hlo
    _ ≤ j + 1 := h1
  · calc j + 1 < (i + 2) * 2 ^ t := h2
    _ ≤ 2 ^ (depth i + 1) * 2 ^ t := Nat.mul_le_mul_right _ (by omega)
    _ = 2 ^ (depth i + t + 1) := by rw [← pow_add]; ring_nf

theorem inSub_depth_le {i j : Nat} (h : inSub i j) : depth i ≤ depth j := by
  obtain ⟨t, ht⟩ := h
  have := inSub_depth ht
  omega

theorem inSub_antisym {i j : Nat} (h1 : inSub i j) (h2 : inSub j i) :
    i = j := by
  obtain ⟨t, ht⟩ := h1
  obtain ⟨s, hs⟩ := h2
  have e1 := inSub_depth ht
  have e2 := inSub_depth hs
  have ht0 : t = 0 := by omega
  subst ht0
  simp at ht
  omega

theorem inSub_eq_of_depth_le {i j : Nat} (h : inSub i j)
    (hd : depth j ≤ depth i) : i = j := by
  obtain ⟨t, ht⟩ := h
  have := inSub_depth ht
  have ht0 : t = 0 := by omega
  subst ht0
  simp at ht
  omega

theorem inSub_root (j : Nat) : inSub 0 j := by
  refine ⟨depth j, ?_⟩
  have hlo : 2 ^ depth j ≤ j + 1 := Nat.pow_log_le_self 2 (by omega)
  have hhi : j + 1 < 2 ^ (depth j + 1) :=
    Nat.lt_pow_succ_log_self (by norm_num) (j + 1)
  have hp : 0 < (2 : Nat) ^ depth j := Nat.pos_pow_of_pos _ (by norm_num)
  have h1 : 1 ≤ (j + 1) / 2 ^ depth j := (Nat.le_div_iff_mul_le hp).2 (by omega)
  have h2 : (j + 1) / 2 ^ depth j < 2 := by
    refine (Nat.div_lt_iff_lt_mul hp).2 ?_
    rw [pow_succ] at hhi
    omega
  omega

theorem inSub_child {i j : Nat} (h : inSub i j) (hne : j ≠ i) :
    inSub (leftChild i) j ∨ inSub (rightChild i) j := by
  obtain ⟨t, ht⟩ := h
  cases t with
  | zero => simp at ht; omega
  | succ s =>
    have hq : (j + 1) / 2 ^ s / 2 = i + 1 := by
      rw [Nat.div_div_eq_div_mul, ← pow_succ, ht]
    rcases (by omega : (j + 1) / 2 ^ s = 2 * i + 2 ∨
        (j + 1) / 2 ^ s = 2 * i + 3) with hc | hc
    · exact Or.inl ⟨s, by rw [hc]; simp [leftChild]⟩
    · exact Or.inr ⟨s, by rw [hc]; simp [rightChild]⟩

theorem inSub_step {i x : Nat} (h : inSub i x) (hx : x ≠ 0) :
    i = x ∨ inSub i (parentIdx x) := by
  obtain ⟨t, ht⟩ := h
  cases t with
  | zero => simp at ht; omega
  | succ s =>
    right
    refine ⟨s, ?_⟩
    have hpar : parentIdx x + 1 = (x + 1) / 2 := by
      simp only [parentIdx]
      omega
    rw [hpar, Nat.div_div_eq_div_mul]
    rw [← ht]
    congr 1
    ring

theorem inSub_total {i j x : Nat} (h1 : inSub i x) (h2 : inSub j x) :
    inSub i j ∨ inSub j i := by
  obtain ⟨t, ht⟩ := h1
  obtain ⟨s, hs⟩ := h2
  rcases le_total t s with hts | hts
  · right
    refine ⟨s - t, ?_⟩
    rw [← ht, Nat.div_div_eq_div_mul, ← pow_add]
    rw [show t + (s - t) = s by omega, hs]
  · left
    refine ⟨t - s, ?_⟩
    rw [← hs, Nat.div_div_eq_div_mul, ← pow_add]
    rw [show s + (t - s) = t by omega, ht]

theorem parentIdx_left (i : Nat) : parentIdx (leftChild i) = i := by
  simp only [parentIdx, leftChild]
  omega

theorem parentIdx_right (i : Nat) : parentIdx (rightChild i) = i := by
  simp only [parentIdx, rightChild]
  omega

theorem child_of {x : Nat} (hx : x ≠ 0) :
    x = leftChild (parentIdx x) ∨ x = rightChild (parentIdx x) := by
  simp only [parentIdx, leftChild, rightChild]
  omega

theorem depth_left (i : Nat) : depth (leftChild i) = depth i + 1 :=
  inSub_depth (t := 1) (by simp only [leftChild, pow_one]; omega)

theorem depth_right (i : Nat) : depth (rightChild i) = depth i + 1 :=
  inSub_depth (t := 1) (by simp only [rightChild, pow_one]; omega)

theorem depth_zero : depth 0 = 0 := by
  simp [depth]

theorem depth_pos {x : Nat} (hx : x ≠ 0) : 1 ≤ depth x :=
  Nat.le_log_of_pow_le (by norm_num) (by simp only [pow_one]; omega)

theorem depth_parent {x : Nat} (hx : x ≠ 0) :
    depth (parentIdx x) = depth x - 1 := by
  rcases child_of hx with hc | hc
  · conv_rhs => rw [hc]
    rw [depth_left]
    omega
  · conv_rhs => rw [hc]
    rw [depth_right]
    omega

theorem render_of_mem {A : Finset Nat} {i : Nat} (h : i ∈ A) (hh : Nat) :
    render A i hh = 0 := by
  cases hh with
  | zero => rw [render, if_pos h]
  | succ k => rw [render, if_pos h]

theorem render_le (A : Finset Nat) (i h : Nat) : render A i h ≤ 2 ^ h := by
  induction h generalizing i with
  | zero =>
    rw [render, pow_zero]
    split_ifs <;> omega
  | succ h ih =>
    rw [render]
    by_cases hi : i ∈ A
    · rw [if_pos hi]
      exact Nat.zero_le _
    · rw [if_neg hi]
      by_cases hc : render A (leftChild i) h + render A (rightChild i) h =
          2 ^ (h + 1)
      · rw [if_pos hc]
      · rw [if_neg hc]
        exact le_trans (max_le (ih (leftChild i)) (ih (rightChild i)))
          (Nat.pow_le_pow_right (by omega) (by omega))

theorem render_full {A : Finset Nat} {i h : Nat}
    (hdis : ∀ j, inSub i j → j ∉ A) : render A i h = 2 ^ h := by
  induction h generalizing i with
  | zero =>
    rw [render, if_neg (hdis i (inSub_refl i)), pow_zero]
  | succ h ih =>
    have hl := ih (i := leftChild i)
      (fun j hj => hdis j (inSub_trans (inSub_left i) hj))
    have hr := ih (i := rightChild i)
      (fun j hj => hdis j (inSub_trans (inSub_right i) hj))
    rw [render, if_neg (hdis i (inSub_refl i))]
    simp only [hl, hr]
    rw [if_pos (by rw [pow_succ]; ring)]

theorem render_lt {A : Finset Nat} {a i h : Nat} (ha : a ∈ A)
    (hsub : inSub i a) (hd : depth a ≤ depth i + h) :
    render A i h < 2 ^ h := by
  induction h generalizing i with
  | zero =>
    have : i = a := inSub_eq_of_depth_le hsub (by omega)
    subst this
    rw [render, if_pos ha, pow_zero]
    omega
  | succ h ih =>
    by_cases hi : i ∈ A
    · rw [render, if_pos hi]
      exact Nat.pos_pow_of_pos _ (by omega)
    · have hne : a ≠ i := fun he => hi (he ▸ ha)
      rcases inSub_child hsub hne with hc | hc
      · have hlt := ih (i := leftChild i) hc (by rw [depth_left]; omega)
        rw [render, if_neg hi]
        have hr := render_le A (rightChild i) h
        rw [if_neg (by rw [pow_succ]; omega)]
        have h2 : (2 : Nat) ^ h < 2 ^ (h + 1) := by
          rw [pow_succ]
          have := Nat.pos_pow_of_pos h (by omega : 0 < 2)
          omega
        exact lt_of_le_of_lt (max_le (le_of_lt hlt) hr) h2
      · have hlt := ih (i := rightChild i) hc (by rw [depth_right]; omega)
        rw [render, if_neg hi]
        have hl := render_le A (leftChild i) h
        rw [if_neg (by rw [pow_succ]; omega)]
        have h2 : (2 : Nat) ^ h < 2 ^ (h + 1) := by
          rw [pow_succ]
          have := Nat.pos_pow_of_pos h (by omega : 0 < 2)
          omega
        exact lt_of_le_of_lt (max_le hl (le_of_lt hlt)) h2

theorem render_frame {A B : Finset Nat} {i h : Nat}
    (hag : ∀ j, inSub i j → depth j ≤ depth i + h → (j ∈ A ↔ j ∈ B)) :
    render A i h = render B i h := by
  induction h generalizing i with
  | zero =>
    have hi := hag i (inSub_refl i) (by omega)
    rw [render, render]
    by_cases hia : i ∈ A
    · rw [if_pos hia, if_pos (hi.1 hia)]
    · rw [if_neg hia, if_neg (fun hb => hia (hi.2 hb))]
  | succ h ih =>
    have hi := hag i (inSub_refl i) (by omega)
    have hl := ih (i := leftChild i) (fun j hj hdj => hag j
      (inSub_trans (inSub_left i) hj) (by rw [depth_left] at hdj; omega))
    have hr := ih (i := rightChild i) (fun j hj hdj => hag j
      (inSub_trans (inSub_right i) hj) (by rw [depth_right] at hdj; omega))
    rw [render, render]
    by_cases hia : i ∈ A
    · rw [if_pos hia, if_pos (hi.1 hia)]
    · rw [if_neg hia, if_neg (fun hb => hia (hi.2 hb))]
      simp only [hl, hr]

theorem testBit_of_between {n L : Nat} (h1 : 2 ^ L ≤ n)
    (h2 : n < 2 ^ (L + 1)) : n.testBit L = true := by
  have hp : 0 < (2 : Nat) ^ L := Nat.pos_pow_of_pos _ (by omega)
  have ha : 1 ≤ n / 2 ^ L := (Nat.le_div_iff_mul_le hp).2 (by omega)
  have hb : n / 2 ^ L < 2 := by
    refine (Nat.div_lt_iff_lt_mul hp).2 ?_
    rw [pow_succ] at h2
    omega
  rw [Nat.testBit_to_div_mod]
  have hd : n / 2 ^ L = 1 := by omega
  simp [hd]

theorem testBit_log_self {n : Nat} (h : 1 ≤ n) :
    n.testBit (Nat.log 2 n) = true :=
  testBit_of_between (Nat.pow_log_le_self 2 (by omega))
    (Nat.lt_pow_succ_log_self (by norm_num) n)

theorem isPowerOf2_two_pow (k : Nat) : isPowerOf2 (2 ^ k) = true := by
  have hz : 2 ^ k &&& (2 ^ k - 1) = 0 := by
    apply Nat.eq_of_testBit_eq
    intro j
    rw [Nat.testBit_land, Nat.testBit_two_pow, Nat.testBit_two_pow_sub_one,
      Nat.zero_testBit]
    by_cases hjk : k = j
    · subst hjk
      simp
    · simp [hjk]
  simp [isPowerOf2, hz]

theorem isPowerOf2_spec {n : Nat} (h1 : 1 ≤ n) (h : isPowerOf2 n = true) :
    n = 2 ^ Nat.log 2 n := by
  by_contra hne
  have hL1 : 2 ^ Nat.log 2 n ≤ n := Nat.pow_log_le_self 2 (by omega)
  have hL2 : n < 2 ^ (Nat.log 2 n + 1) :=
    Nat.lt_pow_succ_log_self (by norm_num) n
  have hr : 2 ^ Nat.log 2 n + 1 ≤ n := by omega
  have ht1 : n.testBit (Nat.log 2 n) = true := testBit_log_self h1
  have ht2 : (n - 1).testBit (Nat.log 2 n) = true :=
    testBit_of_between (by omega) (by omega)
  have hz : n &&& (n - 1) = 0 := by
    simpa [isPowerOf2] using h
  have hc := congrArg (fun x => x.testBit (Nat.log 2 n)) hz
  simp only [Nat.testBit_land, Nat.zero_testBit, ht1, ht2] at hc
  simp at hc

theorem orShift_testBit (x k j : Nat) :
    (x ||| x >>> k).testBit j = (x.testBit j || x.testBit (j + k)) := by
  rw [Nat.testBit_lor, Nat.testBit_shiftRight, Nat.add_comm k j]

theorem smear_top {x L c : Nat}
    (h : ∀ j, j ≤ L → L < j + c → x.testBit j = true) :
    ∀ j, j ≤ L → L < j + c + c → (x ||| x >>> c).testBit j = true := by
  intro j hj hlt
  rw [orShift_testBit]
  by_cases hc : L < j + c
  · rw [h j hj hc]
    simp
  · rw [h (j + c) (by omega) (by omega)]
    simp

theorem smear_hi {x L c : Nat} (h : ∀ j, L < j → x.testBit j = false) :
    ∀ j, L < j → (x ||| x >>> c).testBit j = false := by
  intro j hj
  rw [orShift_testBit, h j hj, h (j + c) (by omega)]
  rfl

theorem smear_ge (x c : Nat) : ∀ j, x.testBit j = true →
    (x ||| x >>> c).testBit j = true := by
  intro j hj
  rw [orShift_testBit, hj]
  simp

theorem le_fixSize (n : Nat) : n + 1 ≤ fixSize n := by
  have hle : n ≤ n ||| n >>> 1 |||
      (n ||| n >>> 1) >>> 2 |||
      (n ||| n >>> 1 ||| (n ||| n >>> 1) >>> 2) >>> 4 |||
      (n ||| n >>> 1 ||| (n ||| n >>> 1) >>> 2 |||
        (n ||| n >>> 1 ||| (n ||| n >>> 1) >>> 2) >>> 4) >>> 8 |||
      (n ||| n >>> 1 ||| (n ||| n >>> 1) >>> 2 |||
        (n ||| n >>> 1 ||| (n ||| n >>> 1) >>> 2) >>> 4 |||
        (n ||| n >>> 1 ||| (n ||| n >>> 1) >>> 2 |||
          (n ||| n >>> 1 ||| (n ||| n >>> 1) >>> 2) >>> 4) >>> 8) >>> 16 := by
    refine Nat.le_of_testBit ?_
    intro j hj
    exact smear_ge _ 16 j (smear_ge _ 8 j (smear_ge _ 4 j
      (smear_ge _ 2 j (smear_ge _ 1 j hj))))
  have hfix : fixSize n = (n ||| n >>> 1 |||
      (n ||| n >>> 1) >>> 2 |||
      (n ||| n >>> 1 ||| (n ||| n >>> 1) >>> 2) >>> 4 |||
      (n ||| n >>> 1 ||| (n ||| n >>> 1) >>> 2 |||
        (n ||| n >>> 1 ||| (n ||| n >>> 1) >>> 2) >>> 4) >>> 8 |||
      (n ||| n >>> 1 ||| (n ||| n >>> 1) >>> 2 |||
        (n ||| n >>> 1 ||| (n ||| n >>> 1) >>> 2) >>> 4 |||
        (n ||| n >>> 1 ||| (n ||| n >>> 1) >>> 2 |||
          (n ||| n >>> 1 ||| (n ||| n >>> 1) >>> 2) >>> 4) >>> 8) >>> 16) + 1 :=
    rfl
  omega

theorem fixSize_eq {n : Nat} (h1 : 1 ≤ n) (h32 : n < 2 ^ 32) :
    fixSize n = 2 ^ (Nat.log 2 n + 1) := by
  obtain ⟨L, hL⟩ : ∃ v, v = Nat.log 2 n := ⟨_, rfl⟩
  have hL31 : L ≤ 31 := by
    rw [hL]
    have := Nat.log_lt_of_lt_pow (by omega : n ≠ 0) h32
    omega
  have hlo : 2 ^ L ≤ n := hL ▸ Nat.pow_log_le_self 2 (by omega)
  have hhi : n < 2 ^ (L + 1) := hL ▸ Nat.lt_pow_succ_log_self (by norm_num) n
  have h0top : ∀ j, j ≤ L → L < j + 1 → n.testBit j = true := by
    intro j hj hlt
    have hje : j = L := by omega
    subst hje
    exact testBit_of_between hlo hhi
  have h0hi : ∀ j, L < j → n.testBit j = false := by
    intro j hj
    exact Nat.testBit_lt_two_pow
      (lt_of_lt_of_le hhi (Nat.pow_le_pow_right (by omega) (by omega)))
  obtain ⟨x1, hx1⟩ : ∃ v, v = n ||| n >>> 1 := ⟨_, rfl⟩
  obtain ⟨x2, hx2⟩ : ∃ v, v = x1 ||| x1 >>> 2 := ⟨_, rfl⟩
  obtain ⟨x3, hx3⟩ : ∃ v, v = x2 ||| x2 >>> 4 := ⟨_, rfl⟩
  obtain ⟨x4, hx4⟩ : ∃ v, v = x3 ||| x3 >>> 8 := ⟨_, rfl⟩
  obtain ⟨x5, hx5⟩ : ∃ v, v = x4 ||| x4 >>> 16 := ⟨_, rfl⟩
  have htop1 : ∀ j, j ≤ L → L < j + 2 → x1.testBit j = true := by
    intro j hj hlt
    rw [hx1]
    exact smear_top h0top j hj (by omega)
  have hhi1 : ∀ j, L < j → x1.testBit j = false := by
    intro j hj
    rw [hx1]
    exact smear_hi h0hi j hj
  have htop2 : ∀ j, j ≤ L → L < j + 4 → x2.testBit j = true := by
    intro j hj hlt
    rw [hx2]
    exact smear_top (fun j hj hlt => htop1 j hj (by omega)) j hj (by omega)
  have hhi2 : ∀ j, L < j → x2.testBit j = false := by
    intro j hj
    rw [hx2]
    exact smear_hi hhi1 j hj
  have htop3 : ∀ j, j ≤ L → L < j + 8 → x3.testBit j = true := by
    intro j hj hlt
    rw [hx3]
    exact smear_top (fun j hj hlt => htop2 j hj (by omega)) j hj (by omega)
  have hhi3 : ∀ j, L < j → x3.testBit j = false := by
    intro j hj
    rw [hx3]
    exact smear_hi hhi2 j hj
  have htop4 : ∀ j, j ≤ L → L < j + 16 → x4.testBit j = true := by
    intro j hj hlt
    rw [hx4]
    exact smear_top (fun j hj hlt => htop3 j hj (by omega)) j hj (by omega)
  have hhi4 : ∀ j, L < j → x4.testBit j = false := by
    intro j hj
    rw [hx4]
    exact smear_hi hhi3 j hj
  have htop5 : ∀ j, j ≤ L → L < j + 32 → x5.testBit j = true := by
    intro j hj hlt
    rw [hx5]
    exact smear_top (fun j hj hlt => htop4 j hj (by omega)) j hj (by omega)
  have hhi5 : ∀ j, L < j → x5.testBit j = false := by
    intro j hj
    rw [hx5]
    exact smear_hi hhi4 j hj
  have hx5v : x5 = 2 ^ (L + 1) - 1 := by
    apply Nat.eq_of_testBit_eq
    intro j
    rw [Nat.testBit_two_pow_sub_one]
    by_cases hj : j ≤ L
    · rw [htop5 j hj (by omega)]
      simp
      omega
    · rw [hhi5 j (by omega)]
      simp
      omega
  have hfix : fixSize n = x5 + 1 := by
    rw [hx5, hx4, hx3, hx2, hx1]
    rfl
  rw [hfix, hx5v, ← hL]
  have hp : 1 ≤ (2 : Nat) ^ (L + 1) := Nat.pos_pow_of_pos _ (by omega)
  omega

theorem upd_same (f : Nat → Nat) (i v : Nat) : upd f i v i = v := by
  simp [upd]

theorem upd_other (f : Nat → Nat) {i j : Nat} (v : Nat) (h : j ≠ i) :
    upd f i v j = f j := by
  simp [upd, h]

theorem depth_le_19 {i : Nat} (h : i < treeLen) : depth i ≤ 19 := by
  rw [treeLen_eq] at h
  have := Nat.log_lt_of_lt_pow (by omega : i + 1 ≠ 0)
    (by omega : i + 1 < 2 ^ 20)
  simp only [depth]
  omega

theorem lt_treeLen_of_depth {i : Nat} (h : depth i ≤ 19) : i < treeLen := by
  have h2 := Nat.lt_pow_succ_log_self (by norm_num : 1 < 2) (i + 1)
  have h3 : (2 : Nat) ^ (Nat.log 2 (i + 1) + 1) ≤ 2 ^ 20 :=
    Nat.pow_le_pow_right (by omega) (by simp only [depth] at h; omega)
  rw [treeLen_eq]
  omega

theorem depth_succ (i : Nat) :
    depth (i + 1) =
      if isPowerOf2 (i + 2) = true then depth i + 1 else depth i := by
  have hlo : 2 ^ depth i ≤ i + 1 := Nat.pow_log_le_self 2 (by omega)
  have hhi : i + 1 < 2 ^ (depth i + 1) :=
    Nat.lt_pow_succ_log_self (by norm_num) (i + 1)
  by_cases hq : isPowerOf2 (i + 2) = true
  · rw [if_pos hq]
    have hspec := isPowerOf2_spec (by omega : 1 ≤ i + 2) hq
    obtain ⟨m, hm⟩ : ∃ v, v = Nat.log 2 (i + 2) := ⟨_, rfl⟩
    rw [← hm] at hspec
    have hm1 : 1 ≤ m := by
      by_contra hc
      have : m = 0 := by omega
      rw [this] at hspec
      simp only [pow_zero] at hspec
      omega
    have hd : depth i = m - 1 := by
      apply Nat.log_eq_of_pow_le_of_lt_pow
      · have hstrict : (2 : Nat) ^ (m - 1) < 2 ^ m :=
          Nat.pow_lt_pow_right (by omega) (by omega)
        omega
      · rw [show m - 1 + 1 = m by omega]
        omega
    show Nat.log 2 (i + 2) = depth i + 1
    rw [← hm, hd]
    omega
  · rw [if_neg hq]
    show Nat.log 2 (i + 2) = depth i
    apply Nat.log_eq_of_pow_le_of_lt_pow (by omega)
    have hne : i + 2 ≠ 2 ^ (depth i + 1) := by
      intro he
      exact hq (he ▸ isPowerOf2_two_pow (depth i + 1))
    omega

theorem buildL_spec (fuel : Nat) :
    ∀ (i : Nat) (L : Nat → Nat) (ns len : Nat),
    len ≤ treeLen → len - i ≤ fuel →
    (i < len → ns = if isPowerOf2 (i + 1) = true
      then 2 ^ (19 - depth i) * 2 else 2 ^ (19 - depth i)) →
    ∀ j, buildL L ns i len j =
      if i ≤ j ∧ j < len then 2 ^ (19 - depth j) else L j := by
  induction fuel with
  | zero =>
    intro i L ns len hlen hfi hns j
    rw [buildL, dif_neg (by omega), if_neg (by omega)]
  | succ f ih =>
    intro i L ns len hlen hfi hns j
    by_cases hilen : i < len
    · have hd : depth i ≤ 19 := depth_le_19 (by omega)
      have hw : (if isPowerOf2 (i + 1) then ns / 2 else ns) =
          2 ^ (19 - depth i) := by
        by_cases hp2 : isPowerOf2 (i + 1) = true
        · rw [if_pos hp2, hns hilen, if_pos hp2,
            Nat.mul_div_cancel _ (by omega : 0 < 2)]
        · rw [if_neg hp2, hns hilen, if_neg hp2]
      rw [buildL, dif_pos hilen]
      rw [ih (i + 1) (upd L i (if isPowerOf2 (i + 1) then ns / 2 else ns))
        _ len hlen (by omega) ?_ j]
      · by_cases hji : j = i
        · subst hji
          rw [if_neg (show ¬(j + 1 ≤ j ∧ j < len) by omega),
            if_pos (show j ≤ j ∧ j < len from ⟨le_refl j, hilen⟩),
            upd_same]
          exact hw
        · rw [upd_other _ _ hji]
          by_cases hcond : i ≤ j ∧ j < len
          · rw [if_pos (show i + 1 ≤ j ∧ j < len by omega), if_pos hcond]
          · rw [if_neg (show ¬(i + 1 ≤ j ∧ j < len) by omega),
              if_neg hcond]
      · intro h1len
        have hd1 : depth (i + 1) ≤ 19 := depth_le_19 (by omega)
        rw [hw, depth_succ i]
        by_cases hq : isPowerOf2 (i + 2) = true
        · rw [if_pos hq, if_pos hq]
          have hdd : depth (i + 1) = depth i + 1 := by
            rw [depth_succ i, if_pos hq]
          rw [show (19 - depth i) = (19 - (depth i + 1)) + 1 by omega,
            pow_succ]
        · rw [if_neg hq, if_neg hq]
    · rw [buildL, dif_neg hilen, if_neg (by omega)]

theorem NewBuddy_size : NewBuddy.size = leafCount := rfl

theorem NewBuddy_longests {i : Nat} (h : depth i ≤ 19) :
    NewBuddy.longests i = 2 ^ (19 - depth i) := by
  have hi : i < treeLen := lt_treeLen_of_depth h
  have hspec := buildL_spec treeLen 0 (fun _ => 0)
    (2 * (BuddySizeN >>> MinPowerOf2)) treeLen (le_refl _) (by omega)
    (fun _ => by rw [depth_zero]; decide) i
  show buildL (fun _ => 0) (2 * (BuddySizeN >>> MinPowerOf2)) 0
    (BuddySizeN >>> (MinPowerOf2 - 1) - 1) i = 2 ^ (19 - depth i)
  rw [show BuddySizeN >>> (MinPowerOf2 - 1) - 1 = treeLen from rfl]
  rw [hspec, if_pos ⟨Nat.zero_le i, hi⟩]

theorem BInv_init : BInv NewBuddy ∅ := by
  refine
    { hsize := NewBuddy_size,
      hvalid := by simp,
      hanti := by simp,
      hrender := ?_ }
  intro i hi
  rw [NewBuddy_longests hi, render_full (A := ∅) (fun j _ => by simp)]

theorem inSub_strict_depth {i j : Nat} (h : inSub i j) (hne : i ≠ j) :
    depth i < depth j := by
  obtain ⟨t, ht⟩ := h
  have hd := inSub_depth ht
  rcases Nat.eq_zero_or_pos t with rfl | hp
  · simp at ht
    omega
  · omega

theorem inSub_zero {i : Nat} (h : inSub i 0) : i = 0 := by
  obtain ⟨t, ht⟩ := h
  simp only [Nat.zero_add] at ht
  have := Nat.div_le_self 1 (2 ^ t)
  omega

theorem inSub_child_of_parent {x : Nat} (hx : x ≠ 0) :
    inSub (parentIdx x) x := by
  rcases child_of hx with hc | hc
  · conv_rhs => rw [hc]
    exact inSub_left _
  · conv_rhs => rw [hc]
    exact inSub_right _

/-- The ancestor-update loop of `Alloc` recomputes every strict ancestor
of the marked node as the max of its children; this equals the rendering
of the new allocated set because each such ancestor has an allocated node
below it, which rules out the `sum` case of the buddy recurrence. -/
theorem updAlloc_render (x : Nat) : ∀ (L : Nat → Nat) (A : Finset Nat),
    depth x ≤ 19 →
    (∀ p, inSub p x → p ≠ x →
      p ∉ A ∧ ∃ a ∈ A, inSub p a ∧ depth a ≤ 19) →
    (∀ i, depth i ≤ 19 → (inSub i x → i = x) →
      L i = render A i (19 - depth i)) →
    ∀ i, depth i ≤ 19 → updAlloc L x i = render A i (19 - depth i) := by
  induction x using Nat.strong_induction_on with
  | _ x ih =>
    intro L A hdx hanc hL i hdi
    by_cases hx0 : x = 0
    · subst hx0
      rw [updAlloc, dif_pos rfl]
      exact hL i hdi (fun hs => inSub_zero hs)
    · have hpx : parentIdx x < x := by
        simp only [parentIdx]
        omega
      have hsubpx : inSub (parentIdx x) x := inSub_child_of_parent hx0
      have hdp : depth (parentIdx x) = depth x - 1 := depth_parent hx0
      have hdx1 : 1 ≤ depth x := depth_pos hx0
      have hpne : parentIdx x ≠ x := by
        intro he
        omega
      obtain ⟨hpA, a, haA, hpa, hda⟩ := hanc (parentIdx x) hsubpx hpne
      have hchild : ∀ c, (c = leftChild (parentIdx x) ∨
          c = rightChild (parentIdx x)) →
          L c = render A c (19 - depth c) := by
        intro c hc
        have hdc : depth c = depth x := by
          rcases hc with rfl | rfl
          · rw [depth_left]
            omega
          · rw [depth_right]
            omega
        refine hL c (by omega) ?_
        intro hcx
        exact inSub_eq_of_depth_le hcx (by omega)
      have hvrender :
          max (L (leftChild (parentIdx x))) (L (rightChild (parentIdx x))) =
            render A (parentIdx x) (19 - depth (parentIdx x)) := by
        have hdl : depth (leftChild (parentIdx x)) = depth x := by
          rw [depth_left]
          omega
        have hdr : depth (rightChild (parentIdx x)) = depth x := by
          rw [depth_right]
          omega
        have hhe : 19 - depth (parentIdx x) = (19 - depth x) + 1 := by omega
        have hrlt : render A (parentIdx x) ((19 - depth x) + 1) <
            2 ^ ((19 - depth x) + 1) :=
          render_lt haA hpa (by omega)
        have hform : render A (parentIdx x) ((19 - depth x) + 1) =
            if render A (leftChild (parentIdx x)) (19 - depth x) +
                render A (rightChild (parentIdx x)) (19 - depth x) =
                2 ^ ((19 - depth x) + 1)
            then 2 ^ ((19 - depth x) + 1)
            else max (render A (leftChild (parentIdx x)) (19 - depth x))
              (render A (rightChild (parentIdx x)) (19 - depth x)) := by
          rw [render, if_neg hpA]
        by_cases hsum : render A (leftChild (parentIdx x)) (19 - depth x) +
            render A (rightChild (parentIdx x)) (19 - depth x) =
            2 ^ ((19 - depth x) + 1)
        · rw [hform, if_pos hsum] at hrlt
          omega
        · rw [hhe, hform, if_neg hsum,
            hchild _ (Or.inl rfl), hchild _ (Or.inr rfl), hdl, hdr]
      have hrec := ih (parentIdx x) hpx
        (upd L (parentIdx x)
          (max (L (leftChild (parentIdx x))) (L (rightChild (parentIdx x)))))
        A (by omega)
        (fun q hq hqne => hanc q (inSub_trans hq hsubpx)
          (fun he => by
            subst he
            have h1 := inSub_strict_depth hq hqne
            omega))
        ?_ i hdi
      · rw [updAlloc, dif_neg hx0]
        exact hrec
      · intro j hdj hj
        by_cases hjp : j = parentIdx x
        · subst hjp
          rw [upd_same]
          exact hvrender
        · rw [upd_other _ _ hjp]
          refine hL j hdj ?_
          intro hjx
          rcases inSub_step hjx hx0 with he | he
          · exact he
          · exact absurd (hj he) hjp

/-- When the descent reaches a node whose rendered value is full (at least
the requested size), the node's whole subtree is free of allocated nodes
(and so are the nodes between the start of the descent and it). -/
theorem descend_stop {A : Finset Nat} {L : Nat → Nat} {k i : Nat}
    (hA : ∀ a ∈ A, depth a ≤ 19)
    (hL : ∀ j, depth j ≤ 19 → L j = render A j (19 - depth j))
    (hdi : depth i = 19 - k) (hk : k ≤ 19) (hge : 2 ^ k ≤ L i) :
    (∀ j, inSub i j → j ∉ A) ∧
    (∀ p, inSub p i → inSub i p → p ∉ A) := by
  have hLi : L i = render A i k := by
    rw [hL i (by omega)]
    congr 1
    omega
  have hdis : ∀ j, inSub i j → j ∉ A := by
    intro j hj hjA
    have hdj : depth j ≤ depth i + k := by
      have := hA j hjA
      omega
    have := render_lt hjA hj hdj
    have hle := render_le A i k
    omega
  refine ⟨hdis, ?_⟩
  intro p hpi hip
  have hpe : p = i := inSub_antisym hpi hip
  subst hpe
  exact hdis p (inSub_refl p)

/-- The descent loop of `Alloc`: starting from a node of height `h` whose
entry is at least the rounded size `2^k`, it reaches a node of height `k`
lying under the start whose subtree is disjoint from the allocated set,
all nodes on the way down being unallocated. -/
theorem allocDescend_spec {A : Finset Nat} {L : Nat → Nat} {k : Nat}
    (hA : ∀ a ∈ A, depth a ≤ 19)
    (hL : ∀ j, depth j ≤ 19 → L j = render A j (19 - depth j)) :
    ∀ (h i : Nat), k ≤ h → h ≤ 19 → depth i = 19 - h →
    2 ^ k ≤ L i →
    inSub i (allocDescend L (2 ^ k) (2 ^ h) i) ∧
    depth (allocDescend L (2 ^ k) (2 ^ h) i) = 19 - k ∧
    (∀ j, inSub (allocDescend L (2 ^ k) (2 ^ h) i) j → j ∉ A) ∧
    (∀ p, inSub p (allocDescend L (2 ^ k) (2 ^ h) i) → inSub i p →
      p ∉ A) := by
  intro h
  induction h with
  | zero =>
    intro i hkh h19 hdi hge
    have hk0 : k = 0 := by omega
    subst hk0
    have hstop : allocDescend L (2 ^ 0) (2 ^ 0) i = i := by
      rw [allocDescend, if_pos rfl]
    rw [hstop]
    obtain ⟨h1, h2⟩ := descend_stop hA hL hdi (by omega) hge
    exact ⟨inSub_refl i, by omega, h1, h2⟩
  | succ h ih =>
    intro i hkh h19 hdi hge
    by_cases hkh1 : k = h + 1
    · subst hkh1
      have hstop : allocDescend L (2 ^ (h + 1)) (2 ^ (h + 1)) i = i := by
        rw [allocDescend, if_pos rfl]
      rw [hstop]
      obtain ⟨h1, h2⟩ := descend_stop hA hL hdi (by omega) hge
      exact ⟨inSub_refl i, by omega, h1, h2⟩
    · have hkh' : k ≤ h := by omega
      have hiA : i ∉ A := by
        intro hiA
        have h0 := render_of_mem hiA (19 - depth i)
        rw [hL i (by omega), h0] at hge
        have : 1 ≤ (2 : Nat) ^ k := Nat.pos_pow_of_pos _ (by omega)
        omega
      obtain ⟨c, hc⟩ : ∃ v, v = (if L (leftChild i) ≥ 2 ^ k
          then leftChild i else rightChild i) := ⟨_, rfl⟩
      have hdl : depth (leftChild i) = 19 - h := by
        rw [depth_left]
        omega
      have hdr : depth (rightChild i) = 19 - h := by
        rw [depth_right]
        omega
      have hLi : L i = render A i (h + 1) := by
        rw [hL i (by omega)]
        congr 1
        omega
      have hform : render A i (h + 1) =
          if render A (leftChild i) h + render A (rightChild i) h =
              2 ^ (h + 1)
          then 2 ^ (h + 1)
          else max (render A (leftChild i) h)
            (render A (rightChild i) h) := by
        rw [render, if_neg hiA]
      have hLl : L (leftChild i) = render A (leftChild i) h := by
        rw [hL (leftChild i) (by omega)]
        congr 1
        omega
      have hLr : L (rightChild i) = render A (rightChild i) h := by
        rw [hL (rightChild i) (by omega)]
        congr 1
        omega
      have hgec : 2 ^ k ≤ L c := by
        by_cases hsum : render A (leftChild i) h +
            render A (rightChild i) h = 2 ^ (h + 1)
        · have hml := render_le A (leftChild i) h
          have hmr := render_le A (rightChild i) h
          have hpk : (2 : Nat) ^ k ≤ 2 ^ h :=
            Nat.pow_le_pow_right (by omega) hkh'
          have hleq : render A (leftChild i) h = 2 ^ h := by
            rw [pow_succ] at hsum
            omega
          have hcl : c = leftChild i := by
            rw [hc, if_pos (by rw [hLl, hleq]; omega)]
          rw [hcl, hLl, hleq]
          omega
        · have hmax : 2 ^ k ≤ max (render A (leftChild i) h)
              (render A (rightChild i) h) := by
            rw [hLi, hform, if_neg hsum] at hge
            exact hge
          by_cases hcl : L (leftChild i) ≥ 2 ^ k
          · rw [hc, if_pos hcl]
            exact hcl
          · rw [hc, if_neg hcl]
            rw [hLr]
            rw [hLl] at hcl
            omega
      have hsubc : inSub i c := by
        rcases (by rw [hc]; split_ifs <;> simp : c = leftChild i ∨
            c = rightChild i) with hce | hce
        · rw [hce]
          exact inSub_left i
        · rw [hce]
          exact inSub_right i
      have hdc : depth c = 19 - h := by
        rcases (by rw [hc]; split_ifs <;> simp : c = leftChild i ∨
            c = rightChild i) with hce | hce
        · rw [hce, hdl]
        · rw [hce, hdr]
      have hne1 : ¬((2 : Nat) ^ (h + 1) = 2 ^ k) := by
        intro he
        exact hkh1 (Nat.pow_right_injective (by omega) he).symm
      have hne2 : ¬((2 : Nat) ^ (h + 1) = 0) := by
        have := Nat.pos_pow_of_pos (h + 1) (by omega : 0 < 2)
        omega
      have hdiv : (2 : Nat) ^ (h + 1) / 2 = 2 ^ h := by
        rw [pow_succ]
        exact Nat.mul_div_cancel _ (by omega)
      have hstep : allocDescend L (2 ^ k) (2 ^ (h + 1)) i =
          allocDescend L (2 ^ k) (2 ^ h) c := by
        rw [allocDescend, if_neg hne1, dif_neg hne2, hdiv, ← hc]
      obtain ⟨hsub', hdep', hdis', hanc'⟩ := ih c hkh' (by omega) hdc hgec
      rw [hstep]
      refine ⟨inSub_trans hsubc hsub', hdep', hdis', ?_⟩
      intro p hpa hip
      by_cases hpi : p = i
      · subst hpi
        exact hiA
      · rcases inSub_total hpa hsub' with hpc | hcp
        · have hdpi : depth i < depth p :=
            inSub_strict_depth hip (fun he => hpi he.symm)
          have hpceq : p = c := inSub_eq_of_depth_le hpc (by omega)
          rw [hpceq]
          exact hanc' c hsub' (inSub_refl c)
        · exact hanc' p hpa hcp

theorem nodeUnits_eq {i : Nat} (h : depth i ≤ 19) :
    nodeUnits i = 2 ^ (19 - depth i) := by
  rw [nodeUnits, leafCount_eq, Nat.shiftRight_eq_div_pow,
    Nat.pow_div h (by omega)]

/-- A successful `Alloc` preserves the buddy invariant with the marked
node inserted into the allocated set, and returns that node's offset. -/
theorem Alloc_BInv {b : Buddy} {A : Finset Nat} (hinv : BInv b A)
    {n off : Int} {b' : Buddy} (hAl : b.Alloc n = (some off, b')) :
    BInv b' (insert (b.allocIndex n) A) ∧
      off = nodeOffset (b.allocIndex n) := by
  have hAeq : b.Alloc n =
      if n ≤ 0 then (none, b)
      else if (if isPowerOf2 n.toNat then n.toNat else fixSize n.toNat) >
          b.longests 0 then (none, b)
      else
        (some ((b.allocIndex n + 1 : Int) *
            (if isPowerOf2 n.toNat then n.toNat else fixSize n.toNat) -
            b.size),
         { b with longests := updAlloc (upd b.longests (b.allocIndex n) 0) (b.allocIndex n) }) := rfl
  by_cases hn0 : n ≤ 0
  · rw [hAeq, if_pos hn0] at hAl
    exact absurd (congrArg Prod.fst hAl) (by simp)
  rw [hAeq, if_neg hn0] at hAl
  by_cases hgt : (if isPowerOf2 n.toNat then n.toNat else fixSize n.toNat) >
      b.longests 0
  · rw [if_pos hgt] at hAl
    exact absurd (congrArg Prod.fst hAl) (by simp)
  rw [if_neg hgt] at hAl
  have hoff : off = (b.allocIndex n + 1 : Int) *
      (if isPowerOf2 n.toNat then n.toNat else fixSize n.toNat) -
      b.size :=
    (Option.some.inj (congrArg Prod.fst hAl)).symm
  have hb' : b' = { b with longests := updAlloc (upd b.longests (b.allocIndex n) 0) (b.allocIndex n) } :=
    (congrArg Prod.snd hAl).symm
  have hn1 : 1 ≤ n.toNat := by omega
  have hl0 : b.longests 0 = render A 0 19 := by
    have := hinv.hrender 0 (by rw [depth_zero]; omega)
    rw [depth_zero] at this
    exact this
  have hle19 : (if isPowerOf2 n.toNat then n.toNat else fixSize n.toNat) ≤
      2 ^ 19 := by
    have h1 := render_le A 0 19
    omega
  obtain ⟨k, hk19, hksz⟩ : ∃ k, k ≤ 19 ∧
      (if isPowerOf2 n.toNat then n.toNat else fixSize n.toNat) = 2 ^ k := by
    by_cases hp : isPowerOf2 n.toNat = true
    · refine ⟨Nat.log 2 n.toNat, ?_, ?_⟩
      · by_contra hc
        have h20 : (2 : Nat) ^ 20 ≤ 2 ^ Nat.log 2 n.toNat :=
          Nat.pow_le_pow_right (by omega) (by omega)
        have hsp := isPowerOf2_spec hn1 hp
        have : (2 : Nat) ^ 19 < 2 ^ 20 := by norm_num
        rw [if_pos hp] at hle19
        omega
      · rw [if_pos hp]
        exact isPowerOf2_spec hn1 hp
    · rw [if_neg hp] at hle19 ⊢
      have hfl := le_fixSize n.toNat
      have h32 : n.toNat < 2 ^ 32 := by
        have : (2 : Nat) ^ 19 < 2 ^ 32 := by norm_num
        omega
      have hfx := fixSize_eq hn1 h32
      refine ⟨Nat.log 2 n.toNat + 1, ?_, hfx⟩
      by_contra hc
      have h20 : (2 : Nat) ^ 20 ≤ 2 ^ (Nat.log 2 n.toNat + 1) :=
        Nat.pow_le_pow_right (by omega) (by omega)
      have : (2 : Nat) ^ 19 < 2 ^ 20 := by norm_num
      omega
  have hbsz : b.size = 2 ^ 19 := by
    rw [hinv.hsize, leafCount_eq]
  have ha : b.allocIndex n =
      allocDescend b.longests (2 ^ k) (2 ^ 19) 0 := by
    show allocDescend b.longests
      (if isPowerOf2 n.toNat then n.toNat else fixSize n.toNat) b.size 0 = _
    rw [hksz, hbsz]
  have hge0 : 2 ^ k ≤ b.longests 0 := by
    rw [← hksz]
    omega
  obtain ⟨hsub0, hdepa, hdisa, hanca⟩ :=
    allocDescend_spec hinv.hvalid hinv.hrender 19 0 hk19 (le_refl 19)
      (by rw [depth_zero]) hge0
  rw [← ha] at hsub0 hdepa hdisa hanca
  have hanc2 : ∀ p, inSub p (b.allocIndex n) → p ∉ A :=
    fun p hp => hanca p hp (inSub_root p)
  have hda : depth (b.allocIndex n) ≤ 19 := by omega
  have hnu : nodeUnits (b.allocIndex n) = 2 ^ k := by
    rw [nodeUnits_eq hda, hdepa, show 19 - (19 - k) = k by omega]
  constructor
  · refine
      { hsize := ?_, hvalid := ?_, hanti := ?_, hrender := ?_ }
    · rw [hb']
      exact hinv.hsize
    · intro a' ha'
      rcases Finset.mem_insert.1 ha' with rfl | ha'
      · exact hda
      · exact hinv.hvalid a' ha'
    · intro u hu v hv hsub
      rcases Finset.mem_insert.1 hu with rfl | hu
      · rcases Finset.mem_insert.1 hv with rfl | hv
        · rfl
        · exact absurd hv (hdisa v hsub)
      · rcases Finset.mem_insert.1 hv with rfl | hv
        · exact absurd hu (hanc2 u hsub)
        · exact hinv.hanti u hu v hv hsub
    · intro i hdi
      rw [hb']
      show updAlloc (upd b.longests (b.allocIndex n) 0) (b.allocIndex n) i =
        render (insert (b.allocIndex n) A) i (19 - depth i)
      refine updAlloc_render (b.allocIndex n) _ _ hda ?_ ?_ i hdi
      · intro p hp hpne
        refine ⟨?_, b.allocIndex n, Finset.mem_insert_self _ _, hp, hda⟩
        intro hpA
        rcases Finset.mem_insert.1 hpA with he | hpA
        · exact hpne he
        · exact hanc2 p hp hpA
      · intro j hdj hcond
        by_cases hja : j = b.allocIndex n
        · subst hja
          rw [upd_same]
          exact (render_of_mem (Finset.mem_insert_self _ _) _).symm
        · rw [upd_other _ _ hja, hinv.hrender j hdj]
          refine render_frame ?_
          intro q hq hdq
          constructor
          · exact Finset.mem_insert_of_mem
          · intro hq'
            rcases Finset.mem_insert.1 hq' with rfl | hq'
            · exact absurd (hcond hq) hja
            · exact hq'
  · rw [hoff]
    simp only [nodeOffset]
    rw [hnu, hksz, hinv.hsize]

/-- The merge loop of `Free` recomputes every strict ancestor of the
restored node with exactly the buddy recurrence of the rendering, so the
whole array is the rendering of the new allocated set afterwards. -/
theorem mergeUp_render (x : Nat) : ∀ (L : Nat → Nat) (A : Finset Nat),
    depth x ≤ 19 →
    (∀ p, inSub p x → p ≠ x → p ∉ A) →
    (∀ i, depth i ≤ 19 → (inSub i x → i = x) →
      L i = render A i (19 - depth i)) →
    ∀ i, depth i ≤ 19 →
      mergeUp L x (2 ^ (19 - depth x)) i = render A i (19 - depth i) := by
  induction x using Nat.strong_induction_on with
  | _ x ih =>
    intro L A hdx hanc hL i hdi
    by_cases hx0 : x = 0
    · subst hx0
      rw [mergeUp, dif_pos rfl]
      exact hL i hdi (fun hs => inSub_zero hs)
    · have hpx : parentIdx x < x := by
        simp only [parentIdx]
        omega
      have hsubpx : inSub (parentIdx x) x := inSub_child_of_parent hx0
      have hdp : depth (parentIdx x) = depth x - 1 := depth_parent hx0
      have hdx1 : 1 ≤ depth x := depth_pos hx0
      have hpne : parentIdx x ≠ x := by
        intro he
        omega
      have hpA : parentIdx x ∉ A := hanc (parentIdx x) hsubpx hpne
      have hns : 2 * 2 ^ (19 - depth x) = 2 ^ (19 - depth (parentIdx x)) := by
        rw [show 19 - depth (parentIdx x) = (19 - depth x) + 1 by omega,
          pow_succ]
        ring
      have hchild : ∀ c, (c = leftChild (parentIdx x) ∨
          c = rightChild (parentIdx x)) →
          L c = render A c (19 - depth x) := by
        intro c hc
        have hdc : depth c = depth x := by
          rcases hc with rfl | rfl
          · rw [depth_left]
            omega
          · rw [depth_right]
            omega
        have := hL c (by omega) (fun hcx => inSub_eq_of_depth_le hcx (by omega))
        rw [hdc] at this
        exact this
      have hvrender :
          (if L (leftChild (parentIdx x)) + L (rightChild (parentIdx x)) =
              2 * 2 ^ (19 - depth x)
           then 2 * 2 ^ (19 - depth x)
           else max (L (leftChild (parentIdx x)))
             (L (rightChild (parentIdx x)))) =
            render A (parentIdx x) (19 - depth (parentIdx x)) := by
        rw [show 19 - depth (parentIdx x) = (19 - depth x) + 1 by omega,
          render, if_neg hpA,
          hchild _ (Or.inl rfl), hchild _ (Or.inr rfl),
          show (2 : Nat) ^ ((19 - depth x) + 1) = 2 * 2 ^ (19 - depth x)
            by rw [pow_succ]; ring]
      have hrec := ih (parentIdx x) hpx
        (upd L (parentIdx x)
          (if L (leftChild (parentIdx x)) + L (rightChild (parentIdx x)) =
              2 * 2 ^ (19 - depth x)
           then 2 * 2 ^ (19 - depth x)
           else max (L (leftChild (parentIdx x)))
             (L (rightChild (parentIdx x)))))
        A (by omega)
        (fun q hq hqne => hanc q (inSub_trans hq hsubpx)
          (fun he => by
            subst he
            have h1 := inSub_strict_depth hq hqne
            omega))
        ?_ i hdi
      · rw [mergeUp, dif_neg hx0]
        rw [← hns] at hrec
        exact hrec
      · intro j hdj hj
        by_cases hjp : j = parentIdx x
        · subst hjp
          rw [upd_same]
          exact hvrender
        · rw [upd_other _ _ hjp]
          refine hL j hdj ?_
          intro hjx
          rcases inSub_step hjx hx0 with he | he
          · exact he
          · exact absurd (hj he) hjp

/-- The upward search of `Free` from the leftmost leaf under the freed
node stops exactly at that node: every strictly lower node on the path
has a fully free subtree (nonzero entry), and the freed node's entry is
zero. -/
theorem freeWalk_spec {A : Finset Nat} {L : Nat → Nat} {a : Nat}
    (hL : ∀ j, depth j ≤ 19 → L j = render A j (19 - depth j))
    (haA : a ∈ A) (hvalid : ∀ u ∈ A, depth u ≤ 19)
    (hanti : ∀ u ∈ A, ∀ v ∈ A, inSub u v → u = v) :
    ∀ s, s ≤ 19 - depth a →
    freeWalk L ((a + 1) * 2 ^ s - 1) (2 ^ (19 - depth a - s)) =
      some (a, 2 ^ (19 - depth a)) := by
  have hda : depth a ≤ 19 := hvalid a haA
  intro s
  induction s with
  | zero =>
    intro _
    have he : (a + 1) * 2 ^ 0 - 1 = a := by
      simp
    rw [he]
    have hLa : L a = 0 := by
      rw [hL a hda, render_of_mem haA]
    rw [freeWalk, if_pos hLa]
    congr 1
  | succ s ihs =>
    intro hs1
    have hy1 : (a + 1) * 2 ^ (s + 1) - 1 + 1 = (a + 1) * 2 ^ (s + 1) := by
      have hp : 1 ≤ (2 : Nat) ^ (s + 1) := Nat.pos_pow_of_pos _ (by omega)
      have h1 : 1 * 1 ≤ (a + 1) * 2 ^ (s + 1) :=
        Nat.mul_le_mul (by omega) hp
      omega
    have hsuby : inSub a ((a + 1) * 2 ^ (s + 1) - 1) := by
      refine ⟨s + 1, ?_⟩
      rw [hy1]
      exact Nat.mul_div_cancel _ (Nat.pos_pow_of_pos _ (by omega))
    have hdy : depth ((a + 1) * 2 ^ (s + 1) - 1) = depth a + (s + 1) := by
      apply inSub_depth
      rw [hy1]
      exact Nat.mul_div_cancel _ (Nat.pos_pow_of_pos _ (by omega))
    have hyne : (a + 1) * 2 ^ (s + 1) - 1 ≠ a := by
      intro he
      rw [he] at hdy
      omega
    have hy0 : ¬((a + 1) * 2 ^ (s + 1) - 1 = 0) := by
      intro he
      have h2 : (2 : Nat) ^ 1 ≤ 2 ^ (s + 1) :=
        Nat.pow_le_pow_right (by omega) (by omega)
      have h3 : (a + 1) * 2 ≤ (a + 1) * 2 ^ (s + 1) :=
        Nat.mul_le_mul_left _ (by simpa using h2)
      omega
    have hdis : ∀ j, inSub ((a + 1) * 2 ^ (s + 1) - 1) j → j ∉ A := by
      intro j hj hjA
      have hja : inSub a j := inSub_trans hsuby hj
      have he : a = j := hanti a haA j hjA hja
      subst he
      exact hyne (inSub_antisym hj hsuby)
    have hLy : L ((a + 1) * 2 ^ (s + 1) - 1) ≠ 0 := by
      rw [hL _ (by omega), render_full hdis]
      have := Nat.pos_pow_of_pos (19 - depth ((a + 1) * 2 ^ (s + 1) - 1))
        (by omega : 0 < 2)
      omega
    have hpar : parentIdx ((a + 1) * 2 ^ (s + 1) - 1) =
        (a + 1) * 2 ^ s - 1 := by
      simp only [parentIdx]
      rw [hy1, pow_succ]
      rw [← Nat.mul_assoc, Nat.mul_div_cancel _ (by omega : 0 < 2)]
    have hnsz : 2 * 2 ^ (19 - depth a - (s + 1)) =
        2 ^ (19 - depth a - s) := by
      rw [show 19 - depth a - s = (19 - depth a - (s + 1)) + 1 by omega,
        pow_succ]
      ring
    rw [freeWalk, if_neg hLy, dif_neg hy0, hpar, hnsz]
    exact ihs (by omega)

/-- `Free` of the offset of an outstanding allocation restores that node
and preserves the buddy invariant with the node removed from the
allocated set. -/
theorem Free_BInv {b : Buddy} {A : Finset Nat} (hinv : BInv b A)
    {a : Nat} (haA : a ∈ A) {b' : Buddy}
    (hF : b.Free (nodeOffset a) = (some (), b')) :
    BInv b' (A.erase a) := by
  have hda : depth a ≤ 19 := hinv.hvalid a haA
  have hnu : nodeUnits a = 2 ^ (19 - depth a) := nodeUnits_eq hda
  have hlo : 2 ^ depth a ≤ a + 1 := Nat.pow_log_le_self 2 (by omega)
  have hhi : a + 1 < 2 ^ (depth a + 1) :=
    Nat.lt_pow_succ_log_self (by norm_num) (a + 1)
  have hsplit : (2 : Nat) ^ depth a * 2 ^ (19 - depth a) = 2 ^ 19 := by
    rw [← pow_add]
    congr 1
    omega
  have hsplit2 : (2 : Nat) ^ (depth a + 1) * 2 ^ (19 - depth a) =
      2 ^ 20 := by
    rw [← pow_add]
    congr 1
    omega
  have hppos : 0 < (2 : Nat) ^ (19 - depth a) :=
    Nat.pos_pow_of_pos _ (by omega)
  have hprod_lo : 2 ^ 19 ≤ (a + 1) * 2 ^ (19 - depth a) := by
    calc (2 : Nat) ^ 19 = 2 ^ depth a * 2 ^ (19 - depth a) := hsplit.symm
    _ ≤ (a + 1) * 2 ^ (19 - depth a) := Nat.mul_le_mul_right _ hlo
  have hprod_hi : (a + 1) * 2 ^ (19 - depth a) < 2 ^ 20 := by
    calc (a + 1) * 2 ^ (19 - depth a) <
        2 ^ (depth a + 1) * 2 ^ (19 - depth a) :=
          (Nat.mul_lt_mul_right hppos).2 hhi
    _ = 2 ^ 20 := hsplit2
  have hoffv : nodeOffset a =
      (((a + 1) * 2 ^ (19 - depth a) : Nat) : Int) -
        (((2 : Nat) ^ 19 : Nat) : Int) := by
    simp only [nodeOffset, hnu, leafCount_eq]
    push_cast
    ring
  have hpow20 : (2 : Nat) ^ 20 = 2 ^ 19 + 2 ^ 19 := by norm_num
  have h0le : ¬(nodeOffset a < 0 ∨ nodeOffset a ≥ (b.size : Int)) := by
    rw [hoffv, hinv.hsize, leafCount_eq]
    omega
  have hFeq : b.Free (nodeOffset a) =
      if nodeOffset a < 0 ∨ nodeOffset a ≥ (b.size : Int) then (none, b)
      else match freeWalk b.longests
          ((nodeOffset a).toNat + b.size - 1) 1 with
        | none => (none, b)
        | some (index, nodeSize) =>
          (some (), { b with longests := mergeUp (upd b.longests index nodeSize) index nodeSize }) :=
    rfl
  rw [hFeq, if_neg h0le] at hF
  have hleaf : (nodeOffset a).toNat + b.size - 1 =
      (a + 1) * 2 ^ (19 - depth a) - 1 := by
    rw [hinv.hsize, leafCount_eq]
    rw [hoffv]
    omega
  have hwalk := freeWalk_spec hinv.hrender haA hinv.hvalid hinv.hanti
    (19 - depth a) (le_refl _)
  rw [Nat.sub_self, pow_zero] at hwalk
  rw [hleaf, hwalk] at hF
  have hb' : b' = { b with longests := mergeUp (upd b.longests a (2 ^ (19 - depth a))) a (2 ^ (19 - depth a)) } :=
    (congrArg Prod.snd hF).symm
  refine
    { hsize := ?_, hvalid := ?_, hanti := ?_, hrender := ?_ }
  · rw [hb']
    exact hinv.hsize
  · intro u hu
    exact hinv.hvalid u (Finset.mem_of_mem_erase hu)
  · intro u hu v hv hs
    exact hinv.hanti u (Finset.mem_of_mem_erase hu) v
      (Finset.mem_of_mem_erase hv) hs
  · intro i hdi
    rw [hb']
    show mergeUp (upd b.longests a (2 ^ (19 - depth a))) a
        (2 ^ (19 - depth a)) i =
      render (A.erase a) i (19 - depth i)
    refine mergeUp_render a _ _ hda ?_ ?_ i hdi
    · intro p hp hpne hpmem
      exact hpne (hinv.hanti p (Finset.mem_of_mem_erase hpmem) a haA hp)
    · intro j hdj hcond
      by_cases hja : j = a
      · subst hja
        rw [upd_same]
        refine (render_full ?_).symm
        intro q hq hqmem
        have hqA := Finset.mem_of_mem_erase hqmem
        have hqne := (Finset.mem_erase.1 hqmem).1
        exact hqne (hinv.hanti j haA q hqA hq).symm
      · rw [upd_other _ _ hja, hinv.hrender j hdj]
        refine render_frame ?_
        intro q hq hdq
        constructor
        · intro hqA
          refine Finset.mem_erase.2 ⟨?_, hqA⟩
          intro he
          subst he
          exact hja (hcond hq)
        · exact Finset.mem_of_mem_erase

theorem BuddyReach_BInv {b : Buddy} {A : Finset Nat}
    (h : BuddyReach b A) : BInv b A := by
  induction h with
  | init => exact BInv_init
  | alloc b A n off b' _ hAl ih => exact (Alloc_BInv ih hAl).1
  | free b A a b' _ haA hF ih => exact Free_BInv ih haA hF

/-- C8: for every sequence of paired `Alloc(n)` / `Free(offset)`
operations on a fresh `Buddy` (every `Alloc` succeeding, every returned
offset freed exactly once — captured by the ghost set of outstanding
allocations — and all allocations freed by the end, i.e. the ghost set
empty), the final value of `longests[0]` equals the initial leaf count
`BuddySize >> MinPowerOf2`. -/
theorem c8_buddy_round_trip {b : Buddy} {A : Finset Nat}
    (h : BuddyReach b A) (hA : A = ∅) :
    b.longests 0 = BuddySizeN >>> MinPowerOf2 := by
  have hinv := BuddyReach_BInv h
  subst hA
  have h0 := hinv.hrender 0 (by rw [depth_zero]; omega)
  rw [depth_zero] at h0
  rw [h0, render_full (A := ∅) (fun j _ => by simp)]
  decide

theorem c8_witness :
    NewBuddy.longests 0 = BuddySizeN >>> MinPowerOf2 :=
  c8_buddy_round_trip BuddyReach.init rfl

end Gomem
